import Mathlib

/-!
Verification of the jlens JSON selector engine (src/lib.rs, src/jlens.rs).

The document model is a tree (`Json`).  Rust deduplicates by raw pointer
identity (`*const Json`); since the document is an owning tree, a node's
address corresponds one-to-one to its position in the tree, so identity is
modelled as a position (`Pos`), with a second reference constructor for the
static `SINGLETON : Json = Boolean(true)` used by `AndSel`/`OrSel`.
Selectors are a deep embedding (`Sel`); `Sel.select` mirrors each Rust
`impl Selector for ...`: the visitor-callback streams become lists of
emitted paths, and the mutable `HashSet` seen-sets and boolean flags become
state threaded through folds in the same order the Rust code mutates them.
-/

set_option maxHeartbeats 1000000

/-- Document model: `serialize::json::Json` (floating point `F64` omitted). -/
inductive Json where
  | null : Json
  | boolean (b : Bool) : Json
  | u64 (n : Nat) : Json
  | i64 (n : Int) : Json
  | string (s : String) : Json
  | array (elems : List Json) : Json
  | object (entries : List (String × Json)) : Json
/-- Immediate child nodes: values of an object (in entry order, standing for
the `BTreeMap` iteration order), elements of an array, nothing for leaves. -/
def Json.children : Json → List Json
  | .object entries => entries.map Prod.snd
  | .array elems => elems
  | _ => []

/-- A position in the document tree: the list of child indices from the root. -/
abbrev Pos := List Nat

/-- Dereference a position in a document. -/
def getAt : Json → Pos → Option Json
  | d, [] => some d
  | d, i :: p =>
    match d.children[i]? with
    | some c => getAt c p
    | none => none

/-- A node reference: the identity Rust takes with `&x as *const Json`.
Either a position in the queried document or the static `SINGLETON`. -/
inductive NRef where
  | doc (p : Pos)
  | sentinel
deriving DecidableEq

/-- The node a reference designates (the sentinel is `Json::Boolean(true)`). -/
def refNode (d : Json) : NRef → Option Json
  | .doc p => getAt d p
  | .sentinel => some (.boolean true)

/-- Reference of the `i`-th child of the node referenced by `r`.  A sentinel
never has children, so the sentinel branch is never exercised. -/
def childRef : NRef → Nat → NRef
  | .doc p, i => .doc (p ++ [i])
  | .sentinel, _ => .sentinel

/-- `JsonPath`: a node reference together with the chain of ancestors
(`Root` / `Descendant` in src/lib.rs). -/
inductive JsonPath where
  | root (r : NRef)
  | descendant (r : NRef) (p : JsonPath)
deriving DecidableEq

namespace JsonPath

/-- The node this path points to (`JsonPath::node`). -/
def ref : JsonPath → NRef
  | .root r => r
  | .descendant r _ => r

/-- The parent path if this is not the root (`JsonPath::parent`). -/
def parent : JsonPath → Option JsonPath
  | .root _ => none
  | .descendant _ p => some p

/-- All strict ancestor paths, nearest first. -/
def ancestors : JsonPath → List JsonPath
  | .root _ => []
  | .descendant _ p => p :: p.ancestors

/-- Every node reference along the path, from the node up to the root. -/
def refs : JsonPath → List NRef
  | .root r => [r]
  | .descendant r p => r :: p.refs

end JsonPath

/-- Deep embedding of the selector structs of src/lib.rs.  `atIdx` stands for
`At` (`at` is a Lean keyword); each constructor's first argument is the
`inner` selector it wraps. -/
inductive Sel where
  | node
  | object (inner : Sel)
  | list (inner : Sel)
  | string (inner : Sel)
  | stringEquals (inner : Sel) (comp : String)
  | boolean (inner : Sel)
  | booleanEquals (inner : Sel) (comp : Bool)
  | uint64 (inner : Sel)
  | u64Equals (inner : Sel) (comp : Nat)
  | int64 (inner : Sel)
  | i64Equals (inner : Sel) (comp : Int)
  | null (inner : Sel)
  | atIdx (inner : Sel) (index : Nat)
  | key (inner : Sel) (name : String)
  | child (inner : Sel)
  | parent (inner : Sel)
  | descend (inner : Sel)
  | ascend (inner : Sel)
  | wherein (inner : Sel) (filt : Sel)
  | union (inner : Sel) (left : Sel) (right : Sel)
  | intersect (inner : Sel) (left : Sel) (right : Sel)
  | diff (inner : Sel) (left : Sel) (right : Sel)
  | and (inner : Sel) (left : Sel) (right : Sel)
  | or (inner : Sel) (left : Sel) (right : Sel)
deriving DecidableEq

mutual
/-- `descend_helper` of src/lib.rs: skip the whole subtree if this node's
identity was seen already; otherwise mark it and, for objects and arrays,
emit every child unconditionally and recurse into it. -/
def descend_helper (j : Json) (x : JsonPath) (seen : List NRef) :
    List JsonPath × List NRef :=
  if x.ref ∈ seen then ([], seen)
  else
    match j with
    | .object entries => descendKids (entries.map Prod.snd) 0 x (x.ref :: seen)
    | .array elems => descendKids elems 0 x (x.ref :: seen)
    | _ => ([], x.ref :: seen)
  termination_by 2 * sizeOf j
  decreasing_by
    all_goals simp_wf
    all_goals try omega
    all_goals
      (have hsz : sizeOf (entries.map Prod.snd) ≤ sizeOf entries := by
        clear * - entries
        induction entries with
        | nil => simp
        | cons h t ih =>
          cases h with
          | mk k v =>
            simp only [List.map_cons, List.cons.sizeOf_spec,
              Prod.mk.sizeOf_spec]
            omega
       omega)

/-- Iteration of `descend_helper` over the children `cs` of the node at path
`x`, starting at child index `i`, threading the seen set. -/
def descendKids (cs : List Json) (i : Nat) (x : JsonPath) (seen : List NRef) :
    List JsonPath × List NRef :=
  match cs with
  | [] => ([], seen)
  | c :: rest =>
    let xc := JsonPath.descendant (childRef x.ref i) x
    let r1 := descend_helper c xc seen
    let r2 := descendKids rest (i + 1) x r1.2
    (xc :: (r1.1 ++ r2.1), r2.2)
  termination_by 2 * sizeOf cs + 1
  decreasing_by
    all_goals simp_wf
    all_goals omega
end

/-- The loop body of `Ascend::select`: walk up the parent chain, emitting and
marking each ancestor until one is already in the seen set (or the root's
parent is reached). -/
def ascend_helper (x : JsonPath) (seen : List NRef) :
    List JsonPath × List NRef :=
  match x with
  | .root _ => ([], seen)
  | .descendant _ p =>
    if p.ref ∈ seen then ([], seen)
    else
      let r := ascend_helper p (p.ref :: seen)
      (p :: r.1, r.2)

/-- The fold step of `Descend::select`: run `descend_helper` on the inner
match with the shared seen set, appending its emissions. -/
def descendStep (d : Json) (acc : List JsonPath × List NRef) (x : JsonPath) :
    List JsonPath × List NRef :=
  let r := match refNode d x.ref with
    | some j => descend_helper j x acc.2
    | none => ([], acc.2)
  (acc.1 ++ r.1, r.2)

/-- The per-emission step of `Union::select`: emit `y` unless its node
identity is already in the seen set, recording it. -/
def pushFresh (acc : List JsonPath × List NRef) (y : JsonPath) :
    List JsonPath × List NRef :=
  if y.ref ∈ acc.2 then acc else (acc.1 ++ [y], y.ref :: acc.2)

/-- Evaluation of a selector: the list of paths passed to the visitor `f` by
`Selector::select`, in invocation order.  Each case mirrors the
corresponding Rust `impl Selector`. -/
def Sel.select (d : Json) : Sel → JsonPath → List JsonPath
  | .node, input => [input]
  | .object inner, input =>
    (Sel.select d inner input).filter fun x =>
      match refNode d x.ref with | some (.object _) => true | _ => false
  | .list inner, input =>
    (Sel.select d inner input).filter fun x =>
      match refNode d x.ref with | some (.array _) => true | _ => false
  | .string inner, input =>
    (Sel.select d inner input).filter fun x =>
      match refNode d x.ref with | some (.string _) => true | _ => false
  | .stringEquals inner comp, input =>
    (Sel.select d inner input).filter fun x =>
      match refNode d x.ref with
      | some (.string s) => comp == s
      | _ => false
  | .boolean inner, input =>
    (Sel.select d inner input).filter fun x =>
      match refNode d x.ref with | some (.boolean _) => true | _ => false
  | .booleanEquals inner comp, input =>
    (Sel.select d inner input).filter fun x =>
      match refNode d x.ref with
      | some (.boolean b) => b == comp
      | _ => false
  | .uint64 inner, input =>
    (Sel.select d inner input).filter fun x =>
      match refNode d x.ref with | some (.u64 _) => true | _ => false
  | .u64Equals inner comp, input =>
    (Sel.select d inner input).filter fun x =>
      match refNode d x.ref with
      | some (.u64 n) => n == comp
      | _ => false
  | .int64 inner, input =>
    (Sel.select d inner input).filter fun x =>
      match refNode d x.ref with | some (.i64 _) => true | _ => false
  | .i64Equals inner comp, input =>
    (Sel.select d inner input).filter fun x =>
      match refNode d x.ref with
      | some (.i64 n) => n == comp
      | _ => false
  | .null inner, input =>
    (Sel.select d inner input).filter fun x =>
      match refNode d x.ref with | some .null => true | _ => false
  | .atIdx inner index, input =>
    (Sel.select d inner input).flatMap fun x =>
      match refNode d x.ref with
      | some (.array v) =>
        if index < v.length then [JsonPath.descendant (childRef x.ref index) x]
        else []
      | _ => []
  | .key inner name, input =>
    (Sel.select d inner input).flatMap fun x =>
      match refNode d x.ref with
      | some (.object entries) =>
        match entries.findIdx? (fun kv => kv.1 == name) with
        | some k => [JsonPath.descendant (childRef x.ref k) x]
        | none => []
      | _ => []
  | .child inner, input =>
    (Sel.select d inner input).flatMap fun x =>
      match refNode d x.ref with
      | some j =>
        (List.range j.children.length).map fun k =>
          JsonPath.descendant (childRef x.ref k) x
      | none => []
  | .parent inner, input =>
    ((Sel.select d inner input).foldl (fun acc x =>
      match x.parent with
      | some p =>
        if p.ref ∈ acc.2 then acc else (acc.1 ++ [p], p.ref :: acc.2)
      | none => acc) ([], [])).1
  | .descend inner, input =>
    ((Sel.select d inner input).foldl (descendStep d) ([], [])).1
  | .ascend inner, input =>
    ((Sel.select d inner input).foldl (fun acc x =>
      let r := ascend_helper x acc.2
      (acc.1 ++ r.1, r.2)) ([], [])).1
  | .wherein inner filt, input =>
    (Sel.select d inner input).filter fun x =>
      (Sel.select d filt x).foldl (fun _ _ => true) false
  | .union inner left right, input =>
    ((Sel.select d inner input).foldl (fun acc x =>
      let acc1 := (Sel.select d left x).foldl pushFresh acc
      (Sel.select d right x).foldl pushFresh acc1) ([], [])).1
  | .intersect inner left right, input =>
    ((Sel.select d inner input).foldl (fun acc x =>
      let a1 := (Sel.select d left x).foldl
        (fun (a : List JsonPath × List NRef × List NRef) y =>
          (if y.ref ∈ a.2.2 then a.1 ++ [y] else a.1, y.ref :: a.2.1, a.2.2))
        acc
      (Sel.select d right x).foldl
        (fun a y =>
          (if y.ref ∈ a.2.1 then a.1 ++ [y] else a.1, a.2.1, y.ref :: a.2.2))
        a1) ([], [], [])).1
  | .diff inner left right, input =>
    let seen := (Sel.select d inner input).foldl (fun s x =>
      (Sel.select d right x).foldl (fun s y => y.ref :: s) s) []
    (Sel.select d inner input).foldl (fun out x =>
      out ++ (Sel.select d left x).filter (fun y => decide (y.ref ∉ seen))) []
  | .and inner left right, input =>
    let ms := Sel.select d inner input
    let fl := ms.foldl (fun (b : Bool × Bool) x =>
      ((Sel.select d left x).foldl (fun _ _ => true) b.1,
       (Sel.select d right x).foldl (fun _ _ => true) b.2)) (false, false)
    if fl.1 && fl.2 then [JsonPath.descendant NRef.sentinel input] else []
  | .or inner left right, input =>
    let ms := Sel.select d inner input
    let fl := ms.foldl (fun (b : Bool × Bool) x =>
      ((Sel.select d left x).foldl (fun _ _ => true) b.1,
       (Sel.select d right x).foldl (fun _ _ => true) b.2)) (false, false)
    if fl.1 || fl.2 then [JsonPath.descendant NRef.sentinel input] else []

/-- `JsonExt::query`: run the selector from the document root and collect the
matched nodes.  The `filterMap` dereference is total on every path the
engine emits (proved below). -/
def query (d : Json) (s : Sel) : List Json :=
  (Sel.select d s (JsonPath.root (NRef.doc []))).filterMap fun x =>
    refNode d x.ref

mutual
/-- Specification: the positions of all strict descendants of the node `j`
sitting at position `p`, in pre-order (each child, then its own subtree,
children in order). -/
def preDesc (j : Json) (p : Pos) : List Pos :=
  match j with
  | .object entries => preKids (entries.map Prod.snd) 0 p
  | .array elems => preKids elems 0 p
  | _ => []
  termination_by 2 * sizeOf j
  decreasing_by
    all_goals simp_wf
    all_goals try omega
    all_goals
      (have hsz : sizeOf (entries.map Prod.snd) ≤ sizeOf entries := by
        clear * - entries
        induction entries with
        | nil => simp
        | cons h t ih =>
          cases h with
          | mk k v =>
            simp only [List.map_cons, List.cons.sizeOf_spec,
              Prod.mk.sizeOf_spec]
            omega
       omega)

/-- Descendant positions contributed by the children `cs` (numbered from
`i`) of the node at position `p`, in pre-order. -/
def preKids (cs : List Json) (i : Nat) (p : Pos) : List Pos :=
  match cs with
  | [] => []
  | c :: rest => (p ++ [i]) :: (preDesc c (p ++ [i]) ++ preKids rest (i + 1) p)
  termination_by 2 * sizeOf cs + 1
  decreasing_by
    all_goals simp_wf
    all_goals omega
end

mutual
/-- Specification of the set of nodes whose `descend_helper` body runs when
started at node `j`, position `p`, with initial seen set `s`: the positions
of the subtree of `p` reachable from `p` without meeting a member of `s`. -/
def bodiedSpec (j : Json) (p : Pos) (s : List NRef) : List Pos :=
  if NRef.doc p ∈ s then []
  else
    match j with
    | .object entries => p :: bodiedKids (entries.map Prod.snd) 0 p s
    | .array elems => p :: bodiedKids elems 0 p s
    | _ => [p]
  termination_by 2 * sizeOf j
  decreasing_by
    all_goals simp_wf
    all_goals try omega
    all_goals
      (have hsz : sizeOf (entries.map Prod.snd) ≤ sizeOf entries := by
        clear * - entries
        induction entries with
        | nil => simp
        | cons h t ih =>
          cases h with
          | mk k v =>
            simp only [List.map_cons, List.cons.sizeOf_spec,
              Prod.mk.sizeOf_spec]
            omega
       omega)

/-- Bodied positions contributed by children `cs` of the node at `p`. -/
def bodiedKids (cs : List Json) (i : Nat) (p : Pos) (s : List NRef) :
    List Pos :=
  match cs with
  | [] => []
  | c :: rest => bodiedSpec c (p ++ [i]) s ++ bodiedKids rest (i + 1) p s
  termination_by 2 * sizeOf cs + 1
  decreasing_by
    all_goals simp_wf
    all_goals omega
end

mutual
/-- Specification of the positions emitted by `descend_helper` from node `j`
at position `p` with initial seen set `s`: every child of a bodied node, in
traversal order (a child is emitted even when its own subtree is skipped). -/
def emittedSpec (j : Json) (p : Pos) (s : List NRef) : List Pos :=
  if NRef.doc p ∈ s then []
  else
    match j with
    | .object entries => emittedKids (entries.map Prod.snd) 0 p s
    | .array elems => emittedKids elems 0 p s
    | _ => []
  termination_by 2 * sizeOf j
  decreasing_by
    all_goals simp_wf
    all_goals try omega
    all_goals
      (have hsz : sizeOf (entries.map Prod.snd) ≤ sizeOf entries := by
        clear * - entries
        induction entries with
        | nil => simp
        | cons h t ih =>
          cases h with
          | mk k v =>
            simp only [List.map_cons, List.cons.sizeOf_spec,
              Prod.mk.sizeOf_spec]
            omega
       omega)

/-- Emitted positions contributed by children `cs` of the bodied node `p`. -/
def emittedKids (cs : List Json) (i : Nat) (p : Pos) (s : List NRef) :
    List Pos :=
  match cs with
  | [] => []
  | c :: rest =>
    (p ++ [i]) :: (emittedSpec c (p ++ [i]) s ++ emittedKids rest (i + 1) p s)
  termination_by 2 * sizeOf cs + 1
  decreasing_by
    all_goals simp_wf
    all_goals omega
end

/-- Specification of one `ascend` walk: the strict ancestors of `x` from the
immediate parent upward, cut off at the first one whose node is already in
`seen`, each taken ancestor being added to `seen` as the walk proceeds. -/
def chainFresh : JsonPath → List NRef → List JsonPath
  | .root _, _ => []
  | .descendant _ p, seen =>
    if p.ref ∈ seen then [] else p :: chainFresh p (p.ref :: seen)

/-- Specification of `Ascend::select`: process each inner match in order,
appending its `chainFresh` walk, the seen set accumulating the yielded
ancestors across matches. -/
def ascendSpec : List JsonPath → List NRef → List JsonPath
  | [], _ => []
  | x :: t, seen =>
    let b := chainFresh x seen
    b ++ ascendSpec t (b.map JsonPath.ref ++ seen)

/-- Specification of `Parent::select`: the parent of each inner match, in
first-encounter order, each distinct parent node kept once. -/
def dedupParents : List JsonPath → List NRef → List JsonPath
  | [], _ => []
  | x :: t, seen =>
    match x.parent with
    | none => dedupParents t seen
    | some p =>
      if p.ref ∈ seen then dedupParents t seen
      else p :: dedupParents t (p.ref :: seen)

/-- Keep the elements of a list whose node is not in `seen` and not the node
of an earlier kept element (first occurrence wins). -/
def scanFresh (seen : List NRef) : List JsonPath → List JsonPath
  | [] => []
  | y :: t =>
    if y.ref ∈ seen then scanFresh seen t
    else y :: scanFresh (y.ref :: seen) t

/-- Specification of `Union::select`: for each inner match emit the left
matches then the right matches, deduplicated by node identity with one seen
set for the whole call, first occurrence winning. -/
def unionSpec (d : Json) (left right : Sel) :
    List JsonPath → List NRef → List JsonPath
  | [], _ => []
  | x :: t, seen =>
    let b := scanFresh seen (Sel.select d left x ++ Sel.select d right x)
    b ++ unionSpec d left right t (b.map JsonPath.ref ++ seen)

/-- A path is valid for document `d` when every node reference along it
dereferences (this is automatic in Rust, where paths hold live borrows). -/
def ValidPath (d : Json) (x : JsonPath) : Prop :=
  ∀ r ∈ x.refs, (refNode d r).isSome

instance (d : Json) (x : JsonPath) : Decidable (ValidPath d x) := by
  unfold ValidPath; infer_instance

/-- No position on the chain from `p` down to `r` (both ends included) is in
the seen set `s`.  Positions between `p` and `r` are the `a` with
`a = p ++ t1` and `r = a ++ t2`. -/
def ChainFreeIncl (s : List NRef) (p r : Pos) : Prop :=
  ∀ a t1 t2, a = p ++ t1 → r = a ++ t2 → NRef.doc a ∉ s

/-- Invariant of the `descend` fold: every strict descendant of a node whose
body already ran (a member of the seen set) is itself in the seen set and
has been emitted. -/
def SeenGood (d : Json) (s O : List NRef) : Prop :=
  ∀ q j', NRef.doc q ∈ s → getAt d q = some j' →
    ∀ r ∈ preDesc j' q, NRef.doc r ∈ s ∧ NRef.doc r ∈ O

/-- Full invariant of the fold in `Descend::select` over the inner matches:
`done` is the list of matches already processed and `acc` the accumulator
(emitted paths, seen set).  It packages: the `SeenGood` coverage property;
no node emitted twice; every emitted node is a document node whose parent's
body has run (is in the seen set); every processed match with a
dereferencing document node is in the seen set; and every emitted node is a
strict descendant of some processed match. -/
def DescendInv (d : Json) (done : List JsonPath)
    (acc : List JsonPath × List NRef) : Prop :=
  SeenGood d acc.2 (acc.1.map JsonPath.ref)
  ∧ (acc.1.map JsonPath.ref).Nodup
  ∧ (∀ ρ ∈ acc.1.map JsonPath.ref,
      ∃ q k, ρ = NRef.doc (q ++ [k]) ∧ NRef.doc q ∈ acc.2)
  ∧ (∀ x ∈ done, ∀ p j, x.ref = NRef.doc p → getAt d p = some j →
      NRef.doc p ∈ acc.2)
  ∧ (∀ ρ ∈ acc.1.map JsonPath.ref,
      ∃ x ∈ done, ∃ p j, x.ref = NRef.doc p ∧ getAt d p = some j ∧
        ∃ r ∈ preDesc j p, ρ = NRef.doc r)

theorem foldl_flag (b : Bool) (l : List JsonPath) :
    l.foldl (fun _ _ => true) b = (b || !l.isEmpty) := by
  induction l generalizing b with
  | nil => simp
  | cons h t ih => simp [List.foldl, ih]

theorem andOr_flags (d : Json) (left right : Sel) (ms : List JsonPath)
    (fl fr : Bool) :
    ms.foldl (fun (b : Bool × Bool) x =>
      ((Sel.select d left x).foldl (fun _ _ => true) b.1,
       (Sel.select d right x).foldl (fun _ _ => true) b.2)) (fl, fr)
    = (fl || ms.any (fun x => !(Sel.select d left x).isEmpty),
       fr || ms.any (fun x => !(Sel.select d right x).isEmpty)) := by
  induction ms generalizing fl fr with
  | nil => simp
  | cons h t ih =>
    rw [List.foldl_cons, ih]
    simp [foldl_flag, Bool.or_assoc]

theorem and_select_eq (d : Json) (inner left right : Sel)
    (input : JsonPath) :
    Sel.select d (.and inner left right) input
      = (if ((Sel.select d inner input).any
              fun x => !(Sel.select d left x).isEmpty)
            && ((Sel.select d inner input).any
              fun x => !(Sel.select d right x).isEmpty)
         then [JsonPath.descendant NRef.sentinel input] else []) := by
  simp only [Sel.select, andOr_flags, Bool.false_or]

theorem or_select_eq (d : Json) (inner left right : Sel)
    (input : JsonPath) :
    Sel.select d (.or inner left right) input
      = (if ((Sel.select d inner input).any
              fun x => !(Sel.select d left x).isEmpty)
            || ((Sel.select d inner input).any
              fun x => !(Sel.select d right x).isEmpty)
         then [JsonPath.descendant NRef.sentinel input] else []) := by
  simp only [Sel.select, andOr_flags, Bool.false_or]

/-- C10: `and(left, right)` and `or(left, right)` yield at most one match per
`select` invocation, a single sentinel emitted after the whole inner pass;
the detection flags accumulate across all inner matches, so `and` fires iff
`left` matched on some inner match and `right` on some (possibly different)
inner match, and `or` fires iff either matched on some inner match. -/
theorem and_or_accumulate (d : Json) (inner left right : Sel)
    (input : JsonPath) :
    (Sel.select d (.and inner left right) input
      = (if ((Sel.select d inner input).any
              fun x => !(Sel.select d left x).isEmpty)
            && ((Sel.select d inner input).any
              fun x => !(Sel.select d right x).isEmpty)
         then [JsonPath.descendant NRef.sentinel input] else []))
    ∧ (Sel.select d (.or inner left right) input
      = (if ((Sel.select d inner input).any
              fun x => !(Sel.select d left x).isEmpty)
            || ((Sel.select d inner input).any
              fun x => !(Sel.select d right x).isEmpty)
         then [JsonPath.descendant NRef.sentinel input] else []))
    ∧ (Sel.select d (.and inner left right) input).length ≤ 1
    ∧ (Sel.select d (.or inner left right) input).length ≤ 1 := by
  refine ⟨and_select_eq d inner left right input,
    or_select_eq d inner left right input, ?_, ?_⟩
  · rw [and_select_eq]; split <;> simp
  · rw [or_select_eq]; split <;> simp

/-- C2 counterexample: on document `[null]` with `and(node, node)` over the
inner selector `at(0)`, the emitted sentinel path's parent is the original
input path (the root), whose node differs from the inner match's node
(element 0), so the sentinel's path parent is not the inner match `x`. -/
theorem and_sentinel_parent_cex :
    Sel.select (Json.array [Json.null])
        (Sel.and (Sel.atIdx Sel.node 0) Sel.node Sel.node)
        (JsonPath.root (NRef.doc []))
      = [JsonPath.descendant NRef.sentinel (JsonPath.root (NRef.doc []))]
    ∧ Sel.select (Json.array [Json.null]) (Sel.atIdx Sel.node 0)
        (JsonPath.root (NRef.doc []))
      = [JsonPath.descendant (NRef.doc [0]) (JsonPath.root (NRef.doc []))]
    ∧ (JsonPath.descendant NRef.sentinel
        (JsonPath.root (NRef.doc []))).parent
      = some (JsonPath.root (NRef.doc []))
    ∧ (JsonPath.root (NRef.doc [])).ref
      ≠ (JsonPath.descendant (NRef.doc [0])
          (JsonPath.root (NRef.doc []))).ref :=
  ⟨by decide, by decide, rfl, by decide⟩

/-- C2 amended: every match yielded by `and(left, right)` or `or(left, right)`
is the sentinel path whose node is the fixed document-independent
`Boolean(true)` placeholder and whose path parent is the original input
path passed to `select` (not the inner-selector match `x`). -/
theorem and_or_sentinel_shape (d : Json) (inner left right : Sel)
    (input : JsonPath) :
    (∀ y ∈ Sel.select d (.and inner left right) input,
        y = JsonPath.descendant NRef.sentinel input
        ∧ refNode d y.ref = some (Json.boolean true)
        ∧ y.parent = some input)
    ∧ (∀ y ∈ Sel.select d (.or inner left right) input,
        y = JsonPath.descendant NRef.sentinel input
        ∧ refNode d y.ref = some (Json.boolean true)
        ∧ y.parent = some input) := by
  have ha := and_select_eq d inner left right input
  have ho := or_select_eq d inner left right input
  constructor <;> intro y hy
  · rw [ha] at hy
    split at hy <;> simp only [List.mem_singleton, List.not_mem_nil] at hy
    subst hy; exact ⟨rfl, rfl, rfl⟩
  · rw [ho] at hy
    split at hy <;> simp only [List.mem_singleton, List.not_mem_nil] at hy
    subst hy; exact ⟨rfl, rfl, rfl⟩

/-- Witness for the amended C2 theorem at document `[null]`. -/
theorem and_or_sentinel_shape_witness :
    JsonPath.descendant NRef.sentinel (JsonPath.root (NRef.doc []))
      ∈ Sel.select (Json.array [Json.null])
          (Sel.and Sel.node Sel.node Sel.node) (JsonPath.root (NRef.doc []))
    ∧ (JsonPath.descendant NRef.sentinel (JsonPath.root (NRef.doc []))
        = JsonPath.descendant NRef.sentinel (JsonPath.root (NRef.doc []))
      ∧ refNode (Json.array [Json.null])
          (JsonPath.descendant NRef.sentinel
            (JsonPath.root (NRef.doc []))).ref = some (Json.boolean true)
      ∧ (JsonPath.descendant NRef.sentinel
          (JsonPath.root (NRef.doc []))).parent
        = some (JsonPath.root (NRef.doc []))) :=
  ⟨by decide,
   (and_or_sentinel_shape (Json.array [Json.null]) Sel.node Sel.node Sel.node
      (JsonPath.root (NRef.doc []))).1 _ (by decide)⟩

/-- C6: `wherein(filter)` yields exactly the inner matches `x` (the path `x`
itself, not any of `filter`'s outputs) on which `filter` selects at least
one node, each such inner match once. -/
theorem wherein_existential (d : Json) (inner filt : Sel)
    (input : JsonPath) :
    Sel.select d (.wherein inner filt) input
      = (Sel.select d inner input).filter
          (fun x => !(Sel.select d filt x).isEmpty) := by
  simp only [Sel.select, foldl_flag, Bool.false_or]

/-- C7: when the inner selector matches a single node, `at(i)` yields the
path extended to element `i` when the node is an array of length greater
than `i`, and nothing otherwise; it yields exactly one match iff the node
is an array `v` with `i < v.length`. -/
theorem at_spec (d : Json) (inner : Sel) (input : JsonPath) (i : Nat)
    (x : JsonPath) (j : Json)
    (hms : Sel.select d inner input = [x])
    (hj : refNode d x.ref = some j) :
    (Sel.select d (.atIdx inner i) input
      = (match j with
         | .array v =>
           if i < v.length then [JsonPath.descendant (childRef x.ref i) x]
           else []
         | _ => []))
    ∧ ((Sel.select d (.atIdx inner i) input).length = 1
        ↔ ∃ v, j = Json.array v ∧ i < v.length) := by
  have he : Sel.select d (.atIdx inner i) input
      = (match j with
         | .array v =>
           if i < v.length then [JsonPath.descendant (childRef x.ref i) x]
           else []
         | _ => []) := by
    simp only [Sel.select, hms, List.flatMap_cons, List.flatMap_nil,
      List.append_nil, hj]
    cases j <;> rfl
  refine ⟨he, ?_⟩
  rw [he]
  cases j <;> simp
  rename_i v
  constructor
  · intro h
    by_contra hn
    simp [hn] at h
  · intro h; simp [h]

/-- C8: when the inner selector matches a single node, `key(k)` yields the
path extended to the value bound to `k` when the node is an object
containing `k` (exact full-string equality), and nothing otherwise; it
yields exactly one match iff the object contains `k`. -/
theorem key_spec (d : Json) (inner : Sel) (input : JsonPath) (name : String)
    (x : JsonPath) (j : Json)
    (hms : Sel.select d inner input = [x])
    (hj : refNode d x.ref = some j) :
    (Sel.select d (.key inner name) input
      = (match j with
         | .object entries =>
           (match entries.findIdx? (fun kv => kv.1 == name) with
            | some k => [JsonPath.descendant (childRef x.ref k) x]
            | none => [])
         | _ => []))
    ∧ ((Sel.select d (.key inner name) input).length = 1
        ↔ ∃ entries, j = Json.object entries
            ∧ name ∈ entries.map Prod.fst) := by
  have he : Sel.select d (.key inner name) input
      = (match j with
         | .object entries =>
           (match entries.findIdx? (fun kv => kv.1 == name) with
            | some k => [JsonPath.descendant (childRef x.ref k) x]
            | none => [])
         | _ => []) := by
    simp only [Sel.select, hms, List.flatMap_cons, List.flatMap_nil,
      List.append_nil, hj]
    cases j <;> rfl
  refine ⟨he, ?_⟩
  rw [he]
  cases j
  case object entries =>
    have hany : (entries.findIdx? (fun kv => kv.1 == name)).isSome = true
        ↔ ∃ e2, Json.object entries = Json.object e2
            ∧ name ∈ e2.map Prod.fst := by
      rw [List.findIdx?_isSome]
      constructor
      · intro h
        refine ⟨entries, rfl, ?_⟩
        obtain ⟨kv, hmem, hkv⟩ := List.any_eq_true.mp h
        rw [List.mem_map]
        exact ⟨kv, hmem, by simpa using hkv⟩
      · rintro ⟨e2, he2, hmem⟩
        injection he2 with h2
        subst h2
        rw [List.mem_map] at hmem
        obtain ⟨kv, hmem, hkv⟩ := hmem
        exact List.any_eq_true.mpr ⟨kv, hmem, by simpa using hkv⟩
    rw [← hany]
    cases h : entries.findIdx? (fun kv => kv.1 == name) <;> simp [h]
  all_goals
    constructor
    · intro h; simp at h
    · rintro ⟨e2, he2, -⟩; exact Json.noConfusion he2

/-- Witness for C7 on document `[null]`, index 0 at the root. -/
theorem at_spec_witness :
    (Sel.select (Json.array [Json.null]) (Sel.atIdx Sel.node 0)
        (JsonPath.root (NRef.doc []))
      = (match Json.array [Json.null] with
         | Json.array v =>
           if 0 < v.length then
             [JsonPath.descendant (childRef (JsonPath.root (NRef.doc [])).ref 0)
               (JsonPath.root (NRef.doc []))]
           else []
         | _ => []))
    ∧ ((Sel.select (Json.array [Json.null]) (Sel.atIdx Sel.node 0)
          (JsonPath.root (NRef.doc []))).length = 1
        ↔ ∃ v, Json.array [Json.null] = Json.array v ∧ 0 < v.length) :=
  at_spec (Json.array [Json.null]) Sel.node (JsonPath.root (NRef.doc [])) 0
    (JsonPath.root (NRef.doc [])) (Json.array [Json.null]) rfl rfl

/-- Witness for C8 on document `{"foo": null}`, key `"foo"` at the root. -/
theorem key_spec_witness :
    (Sel.select (Json.object [("foo", Json.null)]) (Sel.key Sel.node "foo")
        (JsonPath.root (NRef.doc []))
      = (match Json.object [("foo", Json.null)] with
         | Json.object entries =>
           (match entries.findIdx? (fun kv => kv.1 == "foo") with
            | some k =>
              [JsonPath.descendant (childRef (JsonPath.root (NRef.doc [])).ref k)
                (JsonPath.root (NRef.doc []))]
            | none => [])
         | _ => []))
    ∧ ((Sel.select (Json.object [("foo", Json.null)]) (Sel.key Sel.node "foo")
          (JsonPath.root (NRef.doc []))).length = 1
        ↔ ∃ entries, Json.object [("foo", Json.null)] = Json.object entries
            ∧ "foo" ∈ entries.map Prod.fst) :=
  key_spec (Json.object [("foo", Json.null)]) Sel.node
    (JsonPath.root (NRef.doc [])) "foo" (JsonPath.root (NRef.doc []))
    (Json.object [("foo", Json.null)]) rfl rfl

theorem parent_fold_eq (ms : List JsonPath) (out : List JsonPath)
    (seen : List NRef) :
    (ms.foldl (fun acc x =>
      match x.parent with
      | some p =>
        if p.ref ∈ acc.2 then acc else (acc.1 ++ [p], p.ref :: acc.2)
      | none => acc) (out, seen)).1
    = out ++ dedupParents ms seen := by
  induction ms generalizing out seen with
  | nil => simp [dedupParents]
  | cons x t ih =>
    rw [List.foldl_cons]
    cases hx : x.parent with
    | none => simp [dedupParents, hx, ih]
    | some p =>
      by_cases hp : p.ref ∈ seen
      · simp [dedupParents, hx, hp, ih]
      · simp [dedupParents, hx, hp, ih]

theorem dedupParents_nodup (ms : List JsonPath) (seen : List NRef) :
    ((dedupParents ms seen).map JsonPath.ref).Nodup
    ∧ ∀ ρ ∈ (dedupParents ms seen).map JsonPath.ref, ρ ∉ seen := by
  induction ms generalizing seen with
  | nil => simp [dedupParents]
  | cons x t ih =>
    cases hx : x.parent with
    | none => simpa [dedupParents, hx] using ih seen
    | some p =>
      by_cases hp : p.ref ∈ seen
      · simpa [dedupParents, hx, hp] using ih seen
      · have ih' := ih (p.ref :: seen)
        simp only [dedupParents, hx, hp, if_false, List.map_cons,
          List.nodup_cons, List.mem_cons]
        refine ⟨⟨fun hmem => ?_, ih'.1⟩, ?_⟩
        · exact (ih'.2 _ hmem) (List.mem_cons_self _ _)
        · intro ρ hρ
          rcases hρ with h | h
          · subst h; exact hp
          · intro hse; exact (ih'.2 _ h) (List.mem_cons_of_mem _ hse)

theorem dedupParents_mem (ms : List JsonPath) (seen : List NRef) :
    ∀ y ∈ dedupParents ms seen, ∃ x ∈ ms, x.parent = some y := by
  induction ms generalizing seen with
  | nil => simp [dedupParents]
  | cons x t ih =>
    intro y hy
    cases hx : x.parent with
    | none =>
      rw [dedupParents, hx] at hy
      obtain ⟨x', hx', hpar⟩ := ih seen y hy
      exact ⟨x', List.mem_cons_of_mem _ hx', hpar⟩
    | some p =>
      rw [dedupParents, hx] at hy
      have hy' : y ∈ if p.ref ∈ seen then dedupParents t seen
          else p :: dedupParents t (p.ref :: seen) := hy
      by_cases hp : p.ref ∈ seen
      · rw [if_pos hp] at hy'
        obtain ⟨x', hx', hpar⟩ := ih seen y hy'
        exact ⟨x', List.mem_cons_of_mem _ hx', hpar⟩
      · rw [if_neg hp] at hy'
        rcases List.mem_cons.mp hy' with rfl | hy'
        · exact ⟨x, List.mem_cons_self _ _, hx⟩
        · obtain ⟨x', hx', hpar⟩ := ih _ y hy'
          exact ⟨x', List.mem_cons_of_mem _ hx', hpar⟩

theorem scanFresh_congr (l : List JsonPath) (s1 s2 : List NRef)
    (h : ∀ ρ, ρ ∈ s1 ↔ ρ ∈ s2) : scanFresh s1 l = scanFresh s2 l := by
  induction l generalizing s1 s2 with
  | nil => rfl
  | cons y t ih =>
    by_cases hy : y.ref ∈ s1
    · rw [scanFresh, if_pos hy, scanFresh, if_pos ((h _).mp hy)]
      exact ih s1 s2 h
    · rw [scanFresh, if_neg hy, scanFresh, if_neg (fun hc => hy ((h _).mpr hc))]
      exact congrArg _ (ih _ _ (fun ρ => by
        simp only [List.mem_cons]
        exact or_congr Iff.rfl (h ρ)))

theorem foldl_pushFresh (l : List JsonPath) (acc : List JsonPath × List NRef) :
    (l.foldl pushFresh acc).1 = acc.1 ++ scanFresh acc.2 l
    ∧ ∀ ρ, ρ ∈ (l.foldl pushFresh acc).2
        ↔ ρ ∈ acc.2 ∨ ρ ∈ (scanFresh acc.2 l).map JsonPath.ref := by
  induction l generalizing acc with
  | nil => simp [scanFresh]
  | cons y t ih =>
    rw [List.foldl_cons]
    by_cases hy : y.ref ∈ acc.2
    · have hstep : pushFresh acc y = acc := by
        rw [pushFresh, if_pos hy]
      rw [hstep, scanFresh, if_pos hy]
      exact ih acc
    · have hstep : pushFresh acc y = (acc.1 ++ [y], y.ref :: acc.2) := by
        rw [pushFresh, if_neg hy]
      rw [hstep, scanFresh, if_neg hy]
      obtain ⟨ih1, ih2⟩ := ih (acc.1 ++ [y], y.ref :: acc.2)
      constructor
      · rw [ih1]; simp
      · intro ρ
        rw [ih2 ρ]
        simp only [List.mem_cons, List.map_cons]
        tauto

theorem scanFresh_nodup (l : List JsonPath) (seen : List NRef) :
    ((scanFresh seen l).map JsonPath.ref).Nodup
    ∧ ∀ ρ ∈ (scanFresh seen l).map JsonPath.ref, ρ ∉ seen := by
  induction l generalizing seen with
  | nil => simp [scanFresh]
  | cons y t ih =>
    by_cases hy : y.ref ∈ seen
    · rw [scanFresh, if_pos hy]; exact ih seen
    · rw [scanFresh, if_neg hy]
      obtain ⟨ih1, ih2⟩ := ih (y.ref :: seen)
      simp only [List.map_cons, List.nodup_cons, List.mem_cons]
      refine ⟨⟨fun hmem => ih2 _ hmem (List.mem_cons_self _ _), ih1⟩, ?_⟩
      intro ρ hρ
      rcases hρ with h | h
      · subst h; exact hy
      · intro hs; exact ih2 _ h (List.mem_cons_of_mem _ hs)

theorem scanFresh_mem (l : List JsonPath) (seen : List NRef) (ρ : NRef) :
    ρ ∈ (scanFresh seen l).map JsonPath.ref
      ↔ ρ ∉ seen ∧ ρ ∈ l.map JsonPath.ref := by
  induction l generalizing seen with
  | nil => simp [scanFresh]
  | cons y t ih =>
    by_cases hy : y.ref ∈ seen
    · rw [scanFresh, if_pos hy, ih]
      simp only [List.map_cons, List.mem_cons]
      constructor
      · rintro ⟨hs, hm⟩; exact ⟨hs, Or.inr hm⟩
      · rintro ⟨hs, hm | hm⟩
        · subst hm; exact absurd hy hs
        · exact ⟨hs, hm⟩
    · rw [scanFresh, if_neg hy]
      simp only [List.map_cons, List.mem_cons, ih]
      constructor
      · rintro (rfl | ⟨hs, hm⟩)
        · exact ⟨hy, Or.inl rfl⟩
        · exact ⟨fun hc => hs (Or.inr hc), Or.inr hm⟩
      · rintro ⟨hs, rfl | hm⟩
        · exact Or.inl rfl
        · by_cases hr : ρ = y.ref
          · exact Or.inl hr
          · exact Or.inr ⟨fun hc => hc.elim hr hs, hm⟩

theorem union_fold_eq (d : Json) (left right : Sel) (ms : List JsonPath)
    (acc : List JsonPath × List NRef) (seen' : List NRef)
    (h : ∀ ρ, ρ ∈ acc.2 ↔ ρ ∈ seen') :
    ((ms.foldl (fun acc x =>
      let acc1 := (Sel.select d left x).foldl pushFresh acc
      (Sel.select d right x).foldl pushFresh acc1) acc).1)
    = acc.1 ++ unionSpec d left right ms seen' := by
  induction ms generalizing acc seen' with
  | nil => simp [unionSpec]
  | cons x t ih =>
    rw [List.foldl_cons, unionSpec]
    have hsplit : (Sel.select d right x).foldl pushFresh
        ((Sel.select d left x).foldl pushFresh acc)
        = (Sel.select d left x ++ Sel.select d right x).foldl pushFresh acc := by
      rw [List.foldl_append]
    show ((t.foldl _ ((Sel.select d right x).foldl pushFresh
      ((Sel.select d left x).foldl pushFresh acc))).1) = _
    rw [hsplit]
    obtain ⟨h1, h2⟩ := foldl_pushFresh
      (Sel.select d left x ++ Sel.select d right x) acc
    have hblock : scanFresh acc.2 (Sel.select d left x ++ Sel.select d right x)
        = scanFresh seen' (Sel.select d left x ++ Sel.select d right x) :=
      scanFresh_congr _ _ _ h
    rw [ih _ ((scanFresh seen' (Sel.select d left x
        ++ Sel.select d right x)).map JsonPath.ref ++ seen')
      (fun ρ => by
        rw [h2 ρ, hblock]
        simp only [List.mem_append]
        exact or_congr (h ρ) Iff.rfl |>.trans or_comm), h1, hblock]
    simp

theorem unionSpec_nodup (d : Json) (left right : Sel) (ms : List JsonPath)
    (seen : List NRef) :
    ((unionSpec d left right ms seen).map JsonPath.ref).Nodup
    ∧ ∀ ρ ∈ (unionSpec d left right ms seen).map JsonPath.ref, ρ ∉ seen := by
  induction ms generalizing seen with
  | nil => simp [unionSpec]
  | cons x t ih =>
    rw [unionSpec]
    obtain ⟨ihn, ihs⟩ := ih ((scanFresh seen (Sel.select d left x
      ++ Sel.select d right x)).map JsonPath.ref ++ seen)
    obtain ⟨sn, ss⟩ := scanFresh_nodup
      (Sel.select d left x ++ Sel.select d right x) seen
    simp only [List.map_append, List.nodup_append]
    refine ⟨⟨sn, ihn, ?_⟩, ?_⟩
    · intro ρ hρ hρ'
      exact ihs _ hρ' (List.mem_append_left _ hρ)
    · intro ρ hρ
      rcases List.mem_append.mp hρ with h | h
      · exact ss _ h
      · intro hs; exact ihs _ h (List.mem_append_right _ hs)

theorem unionSpec_mem (d : Json) (left right : Sel) (ms : List JsonPath)
    (seen : List NRef) (ρ : NRef) :
    ρ ∈ (unionSpec d left right ms seen).map JsonPath.ref
      ↔ ρ ∉ seen ∧ ∃ x ∈ ms,
          (ρ ∈ (Sel.select d left x).map JsonPath.ref
           ∨ ρ ∈ (Sel.select d right x).map JsonPath.ref) := by
  induction ms generalizing seen with
  | nil => simp [unionSpec]
  | cons x t ih =>
    rw [unionSpec]
    constructor
    · intro hρ
      rw [List.map_append, List.mem_append] at hρ
      rcases hρ with h | h
      · obtain ⟨hs, hm⟩ := (scanFresh_mem _ _ _).mp h
        rw [List.map_append, List.mem_append] at hm
        exact ⟨hs, x, List.mem_cons_self _ _, hm⟩
      · obtain ⟨hs, x', hx', hm⟩ := (ih _).mp h
        refine ⟨fun hc => hs (List.mem_append_right _ hc),
          x', List.mem_cons_of_mem _ hx', hm⟩
    · rintro ⟨hs, x', hx', hm⟩
      rw [List.map_append, List.mem_append]
      rcases List.mem_cons.mp hx' with rfl | hx'
      · refine Or.inl ((scanFresh_mem _ _ _).mpr ⟨hs, ?_⟩)
        rw [List.map_append, List.mem_append]
        exact hm
      · by_cases hb : ρ ∈ (scanFresh seen (Sel.select d left x
            ++ Sel.select d right x)).map JsonPath.ref
        · exact Or.inl hb
        · refine Or.inr ((ih _).mpr ⟨?_, x', hx', hm⟩)
          intro hc
          rcases List.mem_append.mp hc with h | h
          · exact hb h
          · exact hs h

/-- C3: `union(left, right)` yields exactly the nodes matched by `left` or
`right` on some inner match, deduplicated by node identity with a single
seen set scoped to the whole `select` call: a node matched more than once
is yielded exactly once, at its first encounter, with `left`'s matches for
each inner match emitted before `right`'s; on `[[1],[2],[3],[1,2]]` the
documented union query yields 3 matches. -/
theorem union_dedup (d : Json) (inner left right : Sel) (input : JsonPath) :
    (Sel.select d (.union inner left right) input
      = unionSpec d left right (Sel.select d inner input) [])
    ∧ ((Sel.select d (.union inner left right) input).map JsonPath.ref).Nodup
    ∧ (∀ ρ : NRef,
        ρ ∈ (Sel.select d (.union inner left right) input).map JsonPath.ref
        ↔ ∃ x ∈ Sel.select d inner input,
            (ρ ∈ (Sel.select d left x).map JsonPath.ref
             ∨ ρ ∈ (Sel.select d right x).map JsonPath.ref))
    ∧ (query (Json.array [Json.array [Json.u64 1], Json.array [Json.u64 2],
        Json.array [Json.u64 3], Json.array [Json.u64 1, Json.u64 2]])
        (Sel.union (Sel.child Sel.node)
          (Sel.wherein Sel.node
            (Sel.u64Equals (Sel.uint64 (Sel.child Sel.node)) 1))
          (Sel.wherein Sel.node
            (Sel.u64Equals (Sel.uint64 (Sel.child Sel.node)) 2)))).length
      = 3 := by
  have heq : Sel.select d (.union inner left right) input
      = unionSpec d left right (Sel.select d inner input) [] := by
    simp only [Sel.select]
    exact (union_fold_eq d left right _ ([], []) []
      (fun ρ => Iff.rfl)).trans (by simp)
  refine ⟨heq, ?_, ?_, by decide⟩
  · rw [heq]; exact (unionSpec_nodup _ _ _ _ _).1
  · intro ρ
    rw [heq, unionSpec_mem]
    simp

/-- Witness for C3: on the documented test, the first inner array `[1]` is
matched (by the left side) and appears in the union's output. -/
theorem union_dedup_witness :
    NRef.doc [0] ∈ (Sel.select
      (Json.array [Json.array [Json.u64 1], Json.array [Json.u64 2],
        Json.array [Json.u64 3], Json.array [Json.u64 1, Json.u64 2]])
      (Sel.union (Sel.child Sel.node)
        (Sel.wherein Sel.node
          (Sel.u64Equals (Sel.uint64 (Sel.child Sel.node)) 1))
        (Sel.wherein Sel.node
          (Sel.u64Equals (Sel.uint64 (Sel.child Sel.node)) 2)))
      (JsonPath.root (NRef.doc []))).map JsonPath.ref :=
  ((union_dedup
    (Json.array [Json.array [Json.u64 1], Json.array [Json.u64 2],
      Json.array [Json.u64 3], Json.array [Json.u64 1, Json.u64 2]])
    (Sel.child Sel.node)
    (Sel.wherein Sel.node
      (Sel.u64Equals (Sel.uint64 (Sel.child Sel.node)) 1))
    (Sel.wherein Sel.node
      (Sel.u64Equals (Sel.uint64 (Sel.child Sel.node)) 2))
    (JsonPath.root (NRef.doc []))).2.2.1 (NRef.doc [0])).mpr
    ⟨JsonPath.descendant (NRef.doc [0]) (JsonPath.root (NRef.doc [])),
      by decide, Or.inl (by decide)⟩

theorem ascend_helper_eq (x : JsonPath) (seen : List NRef) :
    (ascend_helper x seen).1 = chainFresh x seen
    ∧ ∀ ρ, ρ ∈ (ascend_helper x seen).2
        ↔ ρ ∈ seen ∨ ρ ∈ (chainFresh x seen).map JsonPath.ref := by
  induction x generalizing seen with
  | root r => simp [ascend_helper, chainFresh]
  | descendant r p ih =>
    by_cases hp : p.ref ∈ seen
    · rw [ascend_helper, chainFresh]
      simp [hp]
    · rw [ascend_helper, chainFresh]
      simp only [hp, if_false]
      obtain ⟨ih1, ih2⟩ := ih (p.ref :: seen)
      refine ⟨by simp [ih1], ?_⟩
      intro ρ
      rw [ih2 ρ]
      simp only [List.mem_cons, List.map_cons]
      tauto

theorem chainFresh_congr (x : JsonPath) (s1 s2 : List NRef)
    (h : ∀ ρ, ρ ∈ s1 ↔ ρ ∈ s2) : chainFresh x s1 = chainFresh x s2 := by
  induction x generalizing s1 s2 with
  | root r => rfl
  | descendant r p ih =>
    by_cases hp : p.ref ∈ s1
    · rw [chainFresh, if_pos hp, chainFresh, if_pos ((h _).mp hp)]
    · rw [chainFresh, if_neg hp, chainFresh, if_neg (fun hc => hp ((h _).mpr hc))]
      refine congrArg _ (ih _ _ (fun ρ => ?_))
      simp only [List.mem_cons]
      exact or_congr Iff.rfl (h ρ)

theorem chainFresh_nodup (x : JsonPath) (seen : List NRef) :
    ((chainFresh x seen).map JsonPath.ref).Nodup
    ∧ ∀ ρ ∈ (chainFresh x seen).map JsonPath.ref, ρ ∉ seen := by
  induction x generalizing seen with
  | root r => simp [chainFresh]
  | descendant r p ih =>
    by_cases hp : p.ref ∈ seen
    · rw [chainFresh, if_pos hp]; simp
    · rw [chainFresh, if_neg hp]
      obtain ⟨ih1, ih2⟩ := ih (p.ref :: seen)
      simp only [List.map_cons, List.nodup_cons, List.mem_cons]
      refine ⟨⟨fun hmem => ih2 _ hmem (List.mem_cons_self _ _), ih1⟩, ?_⟩
      intro ρ hρ
      rcases hρ with h | h
      · subst h; exact hp
      · intro hs; exact ih2 _ h (List.mem_cons_of_mem _ hs)

theorem chainFresh_sub_ancestors (x : JsonPath) (seen : List NRef) :
    ∀ y ∈ chainFresh x seen, y ∈ x.ancestors := by
  induction x generalizing seen with
  | root r => simp [chainFresh]
  | descendant r p ih =>
    intro y hy
    by_cases hp : p.ref ∈ seen
    · rw [chainFresh, if_pos hp] at hy; exact absurd hy (List.not_mem_nil _)
    · rw [chainFresh, if_neg hp] at hy
      rw [JsonPath.ancestors]
      rcases List.mem_cons.mp hy with rfl | hy
      · exact List.mem_cons_self _ _
      · exact List.mem_cons_of_mem _ (ih _ y hy)

theorem chainFresh_full (x : JsonPath) (seen : List NRef)
    (hdisj : ∀ ρ ∈ x.ancestors.map JsonPath.ref, ρ ∉ seen)
    (hnd : (x.ancestors.map JsonPath.ref).Nodup) :
    chainFresh x seen = x.ancestors := by
  induction x generalizing seen with
  | root r => rfl
  | descendant r p ih =>
    rw [JsonPath.ancestors] at hdisj hnd ⊢
    rw [List.map_cons, List.nodup_cons] at hnd
    have hp : p.ref ∉ seen :=
      hdisj _ (by simp)
    rw [chainFresh, if_neg hp]
    refine congrArg _ (ih _ ?_ hnd.2)
    intro ρ hρ
    simp only [List.mem_cons]
    rintro (rfl | hs)
    · exact hnd.1 hρ
    · exact hdisj ρ (by simp [hρ]) hs

theorem ascend_fold_eq (ms : List JsonPath) (acc : List JsonPath × List NRef)
    (seen' : List NRef) (h : ∀ ρ, ρ ∈ acc.2 ↔ ρ ∈ seen') :
    ((ms.foldl (fun acc x =>
      let r := ascend_helper x acc.2
      (acc.1 ++ r.1, r.2)) acc).1)
    = acc.1 ++ ascendSpec ms seen' := by
  induction ms generalizing acc seen' with
  | nil => simp [ascendSpec]
  | cons x t ih =>
    rw [List.foldl_cons, ascendSpec]
    obtain ⟨h1, h2⟩ := ascend_helper_eq x acc.2
    have hchain : chainFresh x acc.2 = chainFresh x seen' :=
      chainFresh_congr _ _ _ h
    rw [ih _ ((chainFresh x seen').map JsonPath.ref ++ seen')
      (fun ρ => by
        rw [h2 ρ, hchain]
        simp only [List.mem_append]
        exact (or_congr (h ρ) Iff.rfl).trans or_comm)]
    simp [h1, hchain]

theorem ascendSpec_nodup (ms : List JsonPath) (seen : List NRef) :
    ((ascendSpec ms seen).map JsonPath.ref).Nodup
    ∧ ∀ ρ ∈ (ascendSpec ms seen).map JsonPath.ref, ρ ∉ seen := by
  induction ms generalizing seen with
  | nil => simp [ascendSpec]
  | cons x t ih =>
    rw [ascendSpec]
    obtain ⟨ihn, ihs⟩ := ih ((chainFresh x seen).map JsonPath.ref ++ seen)
    obtain ⟨cn, cs⟩ := chainFresh_nodup x seen
    simp only [List.map_append, List.nodup_append]
    refine ⟨⟨cn, ihn, ?_⟩, ?_⟩
    · intro ρ hρ hρ'
      exact ihs _ hρ' (List.mem_append_left _ hρ)
    · intro ρ hρ
      rcases List.mem_append.mp hρ with hm | hm
      · exact cs _ hm
      · intro hs; exact ihs _ hm (List.mem_append_right _ hs)

theorem ascendSpec_mem (ms : List JsonPath) (seen : List NRef) :
    ∀ y ∈ ascendSpec ms seen, ∃ x ∈ ms, y ∈ x.ancestors := by
  induction ms generalizing seen with
  | nil => simp [ascendSpec]
  | cons x t ih =>
    intro y hy
    rw [ascendSpec] at hy
    rcases List.mem_append.mp hy with hm | hm
    · exact ⟨x, List.mem_cons_self _ _, chainFresh_sub_ancestors _ _ _ hm⟩
    · obtain ⟨x', hx', hanc⟩ := ih _ y hm
      exact ⟨x', List.mem_cons_of_mem _ hx', hanc⟩

/-- C5: `ascend()` yields, for each inner match, its strict ancestors from
the immediate parent up to the root, stopping the walk at the first
ancestor already yielded during this `select` invocation (identity dedup
scoped to the call), so no ancestor node is yielded twice; on
`[[{}],[{}],[{}],[{}]]` the selector `child().child().ascend()` yields
exactly 5 matches. -/
theorem ascend_dedup (d : Json) (inner : Sel) (input : JsonPath) :
    (Sel.select d (.ascend inner) input
      = ascendSpec (Sel.select d inner input) [])
    ∧ ((Sel.select d (.ascend inner) input).map JsonPath.ref).Nodup
    ∧ (∀ y ∈ Sel.select d (.ascend inner) input,
        ∃ x ∈ Sel.select d inner input, y ∈ x.ancestors)
    ∧ (∀ x rest, Sel.select d inner input = x :: rest →
        (x.ancestors.map JsonPath.ref).Nodup →
        ∃ t, Sel.select d (.ascend inner) input = x.ancestors ++ t)
    ∧ (query (Json.array [Json.array [Json.object []],
        Json.array [Json.object []], Json.array [Json.object []],
        Json.array [Json.object []]])
        (Sel.ascend (Sel.child (Sel.child Sel.node)))).length = 5 := by
  have heq : Sel.select d (.ascend inner) input
      = ascendSpec (Sel.select d inner input) [] := by
    simp only [Sel.select]
    exact (ascend_fold_eq _ ([], []) [] (fun ρ => Iff.rfl)).trans (by simp)
  refine ⟨heq, ?_, ?_, ?_, by decide⟩
  · rw [heq]; exact (ascendSpec_nodup _ _).1
  · rw [heq]; exact ascendSpec_mem _ _
  · intro x rest hms hnd
    rw [heq, hms, ascendSpec,
      chainFresh_full x [] (by simp) hnd]
    exact ⟨_, rfl⟩

/-- Witness for C5 on `[[{}],[{}],[{}],[{}]]`: the first inner array is an
ancestor of some inner match of `child().child()`. -/
theorem ascend_dedup_witness :
    ∃ x ∈ Sel.select (Json.array [Json.array [Json.object []],
        Json.array [Json.object []], Json.array [Json.object []],
        Json.array [Json.object []]])
      (Sel.child (Sel.child Sel.node)) (JsonPath.root (NRef.doc [])),
      JsonPath.descendant (NRef.doc [0]) (JsonPath.root (NRef.doc []))
        ∈ x.ancestors :=
  (ascend_dedup (Json.array [Json.array [Json.object []],
      Json.array [Json.object []], Json.array [Json.object []],
      Json.array [Json.object []]])
    (Sel.child (Sel.child Sel.node)) (JsonPath.root (NRef.doc []))).2.2.1
    (JsonPath.descendant (NRef.doc [0]) (JsonPath.root (NRef.doc [])))
    (by decide)

/-- C4: `parent()` yields each distinct parent node at most once per `select`
invocation (first-encounter order, identity dedup scoped to the call), a
rootless match contributes nothing, and on `[{},{},{},{}]` the selector
`child().parent()` yields 1 match while `child().parent().child()` yields
4 matches. -/
theorem parent_dedup (d : Json) (inner : Sel) (input : JsonPath) :
    (Sel.select d (.parent inner) input
      = dedupParents (Sel.select d inner input) [])
    ∧ ((Sel.select d (.parent inner) input).map JsonPath.ref).Nodup
    ∧ (∀ y ∈ Sel.select d (.parent inner) input,
        ∃ x ∈ Sel.select d inner input, x.parent = some y)
    ∧ (query (Json.array [Json.object [], Json.object [], Json.object [],
        Json.object []]) (Sel.parent (Sel.child Sel.node))).length = 1
    ∧ (query (Json.array [Json.object [], Json.object [], Json.object [],
        Json.object []])
        (Sel.child (Sel.parent (Sel.child Sel.node)))).length = 4 := by
  have heq : Sel.select d (.parent inner) input
      = dedupParents (Sel.select d inner input) [] := by
    simp only [Sel.select]
    exact (parent_fold_eq _ [] []).trans (by simp)
  refine ⟨heq, ?_, ?_, by decide, by decide⟩
  · rw [heq]; exact (dedupParents_nodup _ _).1
  · rw [heq]; exact dedupParents_mem _ _

/-- Witness for C4 on `[{},{},{},{}]`: the root array is the parent yielded
for the first object child. -/
theorem parent_dedup_witness :
    ∃ x ∈ Sel.select
        (Json.array [Json.object [], Json.object [], Json.object [],
          Json.object []]) (Sel.child Sel.node)
        (JsonPath.root (NRef.doc [])),
      x.parent = some (JsonPath.root (NRef.doc [])) :=
  (parent_dedup
    (Json.array [Json.object [], Json.object [], Json.object [],
      Json.object []]) (Sel.child Sel.node)
    (JsonPath.root (NRef.doc []))).2.2.1 _ (by decide)

theorem getAt_child (d : Json) (p : Pos) (j : Json) (k : Nat) (c : Json)
    (hp : getAt d p = some j) (hc : j.children[k]? = some c) :
    getAt d (p ++ [k]) = some c := by
  induction p generalizing d with
  | nil =>
    have hp' : some d = some j := hp
    injection hp' with h
    subst h
    show (match d.children[k]? with
      | some c => getAt c [] | none => none) = some c
    rw [hc]
    rfl
  | cons i p' ih =>
    have hp' : (match d.children[i]? with
      | some c0 => getAt c0 p' | none => none) = some j := hp
    show (match d.children[i]? with
      | some c0 => getAt c0 (p' ++ [k]) | none => none) = some c
    cases hd : d.children[i]? with
    | none => rw [hd] at hp'; exact absurd hp' (by simp)
    | some c0 => rw [hd] at hp'; exact ih c0 hp'

theorem refNode_childRef (d : Json) (x : NRef) (j : Json) (k : Nat) (c : Json)
    (hj : refNode d x = some j) (hc : j.children[k]? = some c) :
    refNode d (childRef x k) = some c := by
  cases x with
  | doc p => exact getAt_child d p j k c hj hc
  | sentinel =>
    rw [refNode] at hj
    injection hj with h
    subst h
    simp [Json.children] at hc

theorem validPath_descendant (d : Json) (x : JsonPath) (r : NRef)
    (hx : ValidPath d x) (hr : (refNode d r).isSome) :
    ValidPath d (JsonPath.descendant r x) := by
  intro ρ hρ
  rw [JsonPath.refs] at hρ
  rcases List.mem_cons.mp hρ with rfl | hρ
  · exact hr
  · exact hx ρ hρ

theorem validPath_parent (d : Json) (r : NRef) (x : JsonPath)
    (h : ValidPath d (JsonPath.descendant r x)) : ValidPath d x :=
  fun ρ hρ => h ρ (List.mem_cons_of_mem _ hρ)

theorem validPath_ancestors (d : Json) (x : JsonPath) (h : ValidPath d x) :
    ∀ y ∈ x.ancestors, ValidPath d y := by
  induction x with
  | root r => simp [JsonPath.ancestors]
  | descendant r p ih =>
    intro y hy
    rw [JsonPath.ancestors] at hy
    rcases List.mem_cons.mp hy with rfl | hy
    · exact validPath_parent d r y h
    · exact ih (validPath_parent d r p h) y hy

theorem validPath_child (d : Json) (x : JsonPath) (j : Json) (k : Nat)
    (c : Json) (hx : ValidPath d x) (hj : refNode d x.ref = some j)
    (hc : j.children[k]? = some c) :
    ValidPath d (JsonPath.descendant (childRef x.ref k) x) :=
  validPath_descendant _ _ _ hx
    (by rw [refNode_childRef d _ j k c hj hc]; rfl)

theorem findIdx?_some_lt {α : Type} (p : α → Bool) (l : List α) (k : Nat)
    (h : l.findIdx? p = some k) : k < l.length := by
  induction l generalizing k with
  | nil => rw [List.findIdx?_nil] at h; exact absurd h (by simp)
  | cons a t ih =>
    rw [List.findIdx?_cons] at h
    by_cases hp : p a
    · rw [if_pos hp] at h
      injection h with h
      subst h
      simp
    · rw [if_neg hp, List.findIdx?_succ] at h
      cases hk : t.findIdx? p with
      | none => rw [hk] at h; exact absurd h (by simp)
      | some k0 =>
        rw [hk] at h
        have h2 : some (k0 + 1) = some k := h
        injection h2 with h2
        have := ih k0 hk
        simp only [List.length_cons]
        omega

theorem valid_filter_case (d : Json) (inner : Sel) (g : JsonPath → Bool)
    (ih : ∀ input, ValidPath d input →
      ∀ y ∈ Sel.select d inner input, ValidPath d y) :
    ∀ input, ValidPath d input →
      ∀ y ∈ (Sel.select d inner input).filter g, ValidPath d y :=
  fun input h y hy => ih input h y (List.mem_filter.mp hy).1

theorem scanFresh_sub (seen : List NRef) (l : List JsonPath) :
    ∀ y ∈ scanFresh seen l, y ∈ l := by
  induction l generalizing seen with
  | nil => simp [scanFresh]
  | cons a t ih =>
    intro y hy
    by_cases ha : a.ref ∈ seen
    · rw [scanFresh, if_pos ha] at hy
      exact List.mem_cons_of_mem _ (ih seen y hy)
    · rw [scanFresh, if_neg ha] at hy
      rcases List.mem_cons.mp hy with rfl | hy
      · exact List.mem_cons_self _ _
      · exact List.mem_cons_of_mem _ (ih _ y hy)

theorem unionSpec_sub (d : Json) (left right : Sel) (ms : List JsonPath)
    (seen : List NRef) :
    ∀ y ∈ unionSpec d left right ms seen,
      ∃ x ∈ ms, (y ∈ Sel.select d left x ∨ y ∈ Sel.select d right x) := by
  induction ms generalizing seen with
  | nil => simp [unionSpec]
  | cons x t ih =>
    intro y hy
    rw [unionSpec] at hy
    rcases List.mem_append.mp hy with hm | hm
    · have := scanFresh_sub _ _ y hm
      rcases List.mem_append.mp this with hm' | hm'
      · exact ⟨x, List.mem_cons_self _ _, Or.inl hm'⟩
      · exact ⟨x, List.mem_cons_self _ _, Or.inr hm'⟩
    · obtain ⟨x', hx', hm'⟩ := ih _ y hm
      exact ⟨x', List.mem_cons_of_mem _ hx', hm'⟩

theorem foldl_pass_sub {σ : Type} (proj : σ → List JsonPath)
    (g : σ → JsonPath → σ)
    (hg : ∀ a y, proj (g a y) = proj a ∨ proj (g a y) = proj a ++ [y]) :
    ∀ (l : List JsonPath) (a : σ), ∀ z ∈ proj (l.foldl g a),
      z ∈ proj a ∨ z ∈ l := by
  intro l
  induction l with
  | nil => intro a z hz; exact Or.inl hz
  | cons y t ih =>
    intro a z hz
    rw [List.foldl_cons] at hz
    rcases ih (g a y) z hz with h | h
    · rcases hg a y with he | he
      · rw [he] at h; exact Or.inl h
      · rw [he] at h
        rcases List.mem_append.mp h with h | h
        · exact Or.inl h
        · exact Or.inr (List.mem_cons.mpr
            (Or.inl (List.mem_singleton.mp h)))
    · exact Or.inr (List.mem_cons_of_mem _ h)

theorem diff_fold_sub (f : JsonPath → List JsonPath) (g : JsonPath → Bool) :
    ∀ (ms init : List JsonPath),
      ∀ y ∈ ms.foldl (fun out x => out ++ (f x).filter g) init,
        y ∈ init ∨ ∃ x ∈ ms, y ∈ f x := by
  intro ms
  induction ms with
  | nil => intro init y hy; exact Or.inl hy
  | cons x t ih =>
    intro init y hy
    rw [List.foldl_cons] at hy
    rcases ih _ y hy with h | ⟨x', hx', hm⟩
    · rcases List.mem_append.mp h with h | h
      · exact Or.inl h
      · exact Or.inr ⟨x, List.mem_cons_self _ _, (List.mem_filter.mp h).1⟩
    · exact Or.inr ⟨x', List.mem_cons_of_mem _ hx', hm⟩

theorem descend_helper_valid (d : Json) :
    (∀ (j : Json) (x : JsonPath) (seen : List NRef),
      ValidPath d x → refNode d x.ref = some j →
      ∀ y ∈ (descend_helper j x seen).1, ValidPath d y) := by
  have main := descend_helper.induct
    (fun j x seen =>
      ValidPath d x → refNode d x.ref = some j →
      ∀ y ∈ (descend_helper j x seen).1, ValidPath d y)
    (fun cs i x seen =>
      ValidPath d x →
      (∀ k c, cs[k]? = some c →
        refNode d (childRef x.ref (i + k)) = some c) →
      ∀ y ∈ (descendKids cs i x seen).1, ValidPath d y)
  apply main
  · intro j x seen hmem _ _ y hy
    rw [descend_helper.eq_def, if_pos hmem] at hy
    exact absurd hy (List.not_mem_nil _)
  · intro x seen hmem entries ih hx hj y hy
    rw [descend_helper.eq_def, if_neg hmem] at hy
    exact ih hx (fun k c hkc => by
      rw [Nat.zero_add]
      exact refNode_childRef d x.ref _ k c hj hkc) y hy
  · intro x seen hmem elems ih hx hj y hy
    rw [descend_helper.eq_def, if_neg hmem] at hy
    exact ih hx (fun k c hkc => by
      rw [Nat.zero_add]
      exact refNode_childRef d x.ref _ k c hj hkc) y hy
  · intro j x seen hmem hno hna hx hj y hy
    rw [descend_helper.eq_def, if_neg hmem] at hy
    cases j with
    | object entries => exact absurd rfl (hno entries)
    | array elems => exact absurd rfl (hna elems)
    | null => exact absurd hy (List.not_mem_nil _)
    | boolean b => exact absurd hy (List.not_mem_nil _)
    | u64 n => exact absurd hy (List.not_mem_nil _)
    | i64 n => exact absurd hy (List.not_mem_nil _)
    | string s => exact absurd hy (List.not_mem_nil _)
  · intro i x seen _ _ y hy
    rw [descendKids.eq_def] at hy
    exact absurd hy (List.not_mem_nil _)
  · intro i x seen c rest xc r1 ih1 ih1' ih2 hx hco y hy
    rw [descendKids.eq_def] at hy
    have hc0 : refNode d (childRef x.ref i) = some c := by
      have := hco 0 c (by simp)
      rwa [Nat.add_zero] at this
    have hxc : ValidPath d (JsonPath.descendant (childRef x.ref i) x) :=
      validPath_descendant d x _ hx (by rw [hc0]; rfl)
    rcases List.mem_cons.mp hy with rfl | hy
    · exact hxc
    · rcases List.mem_append.mp hy with hy | hy
      · exact ih1' hxc hc0 y hy
      · refine ih2 hx (fun k c' hkc => ?_) y hy
        have := hco (k + 1) c' (by simpa using hkc)
        rwa [show i + (k + 1) = i + 1 + k by omega] at this

theorem select_valid (d : Json) (s : Sel) :
    ∀ input, ValidPath d input → ∀ y ∈ Sel.select d s input, ValidPath d y := by
  induction s with
  | node =>
    intro input h y hy
    simp only [Sel.select, List.mem_singleton] at hy
    subst hy
    exact h
  | object inner ih =>
    intro input h y hy
    simp only [Sel.select] at hy
    exact valid_filter_case d inner _ ih input h y hy
  | list inner ih =>
    intro input h y hy
    simp only [Sel.select] at hy
    exact valid_filter_case d inner _ ih input h y hy
  | string inner ih =>
    intro input h y hy
    simp only [Sel.select] at hy
    exact valid_filter_case d inner _ ih input h y hy
  | stringEquals inner comp ih =>
    intro input h y hy
    simp only [Sel.select] at hy
    exact valid_filter_case d inner _ ih input h y hy
  | boolean inner ih =>
    intro input h y hy
    simp only [Sel.select] at hy
    exact valid_filter_case d inner _ ih input h y hy
  | booleanEquals inner comp ih =>
    intro input h y hy
    simp only [Sel.select] at hy
    exact valid_filter_case d inner _ ih input h y hy
  | uint64 inner ih =>
    intro input h y hy
    simp only [Sel.select] at hy
    exact valid_filter_case d inner _ ih input h y hy
  | u64Equals inner comp ih =>
    intro input h y hy
    simp only [Sel.select] at hy
    exact valid_filter_case d inner _ ih input h y hy
  | int64 inner ih =>
    intro input h y hy
    simp only [Sel.select] at hy
    exact valid_filter_case d inner _ ih input h y hy
  | i64Equals inner comp ih =>
    intro input h y hy
    simp only [Sel.select] at hy
    exact valid_filter_case d inner _ ih input h y hy
  | null inner ih =>
    intro input h y hy
    simp only [Sel.select] at hy
    exact valid_filter_case d inner _ ih input h y hy
  | atIdx inner index ih =>
    intro input h y hy
    simp only [Sel.select] at hy
    rw [List.mem_flatMap] at hy
    obtain ⟨x, hx, hy⟩ := hy
    have hxv := ih input h x hx
    cases hj : refNode d x.ref with
    | none => rw [hj] at hy; exact absurd hy (List.not_mem_nil _)
    | some j =>
      rw [hj] at hy
      cases j with
      | array v =>
        have hy' : y ∈ (if index < v.length then
            [JsonPath.descendant (childRef x.ref index) x] else []) := hy
        by_cases hlt : index < v.length
        · rw [if_pos hlt] at hy'
          rw [List.mem_singleton] at hy'
          subst hy'
          refine validPath_child d x (Json.array v) index (v[index]) hxv hj ?_
          show v[index]? = some (v[index])
          exact List.getElem?_eq_getElem hlt
        · rw [if_neg hlt] at hy'
          exact absurd hy' (List.not_mem_nil _)
      | null => exact absurd hy (List.not_mem_nil _)
      | boolean b => exact absurd hy (List.not_mem_nil _)
      | u64 n => exact absurd hy (List.not_mem_nil _)
      | i64 n => exact absurd hy (List.not_mem_nil _)
      | string str => exact absurd hy (List.not_mem_nil _)
      | object entries => exact absurd hy (List.not_mem_nil _)
  | key inner name ih =>
    intro input h y hy
    simp only [Sel.select] at hy
    rw [List.mem_flatMap] at hy
    obtain ⟨x, hx, hy⟩ := hy
    have hxv := ih input h x hx
    cases hj : refNode d x.ref with
    | none => rw [hj] at hy; exact absurd hy (List.not_mem_nil _)
    | some j =>
      rw [hj] at hy
      cases j with
      | object entries =>
        cases hk : entries.findIdx? (fun kv => kv.1 == name) with
        | none =>
          have hy' : y ∈ ([] : List JsonPath) := by
            have : y ∈ (match entries.findIdx? (fun kv => kv.1 == name) with
              | some k => [JsonPath.descendant (childRef x.ref k) x]
              | none => []) := hy
            rwa [hk] at this
          exact absurd hy' (List.not_mem_nil _)
        | some k =>
          have hy' : y ∈ [JsonPath.descendant (childRef x.ref k) x] := by
            have : y ∈ (match entries.findIdx? (fun kv => kv.1 == name) with
              | some k => [JsonPath.descendant (childRef x.ref k) x]
              | none => []) := hy
            rwa [hk] at this
          rw [List.mem_singleton] at hy'
          subst hy'
          have hlt : k < entries.length := findIdx?_some_lt _ _ k hk
          refine validPath_child d x (Json.object entries) k
            (entries[k].2) hxv hj ?_
          show (entries.map Prod.snd)[k]? = some (entries[k].2)
          rw [List.getElem?_map, List.getElem?_eq_getElem hlt]
          rfl
      | null => exact absurd hy (List.not_mem_nil _)
      | boolean b => exact absurd hy (List.not_mem_nil _)
      | u64 n => exact absurd hy (List.not_mem_nil _)
      | i64 n => exact absurd hy (List.not_mem_nil _)
      | string str => exact absurd hy (List.not_mem_nil _)
      | array v => exact absurd hy (List.not_mem_nil _)
  | child inner ih =>
    intro input h y hy
    simp only [Sel.select] at hy
    rw [List.mem_flatMap] at hy
    obtain ⟨x, hx, hy⟩ := hy
    have hxv := ih input h x hx
    cases hj : refNode d x.ref with
    | none => rw [hj] at hy; exact absurd hy (List.not_mem_nil _)
    | some j =>
      rw [hj] at hy
      rw [List.mem_map] at hy
      obtain ⟨k, hk, rfl⟩ := hy
      rw [List.mem_range] at hk
      exact validPath_child d x j k (j.children[k]) hxv hj
        (List.getElem?_eq_getElem hk)
  | parent inner ih =>
    intro input h y hy
    simp only [Sel.select] at hy
    rw [parent_fold_eq, List.nil_append] at hy
    obtain ⟨x, hx, hp⟩ := dedupParents_mem _ _ y hy
    have hxv := ih input h x hx
    cases x with
    | root r => rw [JsonPath.parent] at hp; exact absurd hp (by simp)
    | descendant r p =>
      rw [JsonPath.parent] at hp
      injection hp with hp
      subst hp
      exact validPath_parent d r _ hxv
  | descend inner ih =>
    intro input h y hy
    simp only [Sel.select] at hy
    suffices H : ∀ (ms : List JsonPath), (∀ x ∈ ms, ValidPath d x) →
        ∀ (acc : List JsonPath × List NRef), (∀ z ∈ acc.1, ValidPath d z) →
        ∀ y ∈ (ms.foldl (descendStep d) acc).1, ValidPath d y by
      exact H _ (fun x hx => ih input h x hx) ([], [])
        (fun z hz => absurd hz (List.not_mem_nil _)) y hy
    intro ms
    induction ms with
    | nil => intro hv acc hacc y hy; exact hacc y hy
    | cons x t iht =>
      intro hv acc hacc y hy
      rw [List.foldl_cons] at hy
      refine iht (fun z hz => hv z (List.mem_cons_of_mem _ hz)) _ ?_ y hy
      intro z hz
      rw [descendStep] at hz
      rcases List.mem_append.mp hz with hz | hz
      · exact hacc z hz
      · cases hj : refNode d x.ref with
        | none =>
          rw [hj] at hz
          exact absurd hz (List.not_mem_nil _)
        | some j =>
          rw [hj] at hz
          exact descend_helper_valid d j x acc.2
            (hv x (List.mem_cons_self _ _)) hj z hz
  | ascend inner ih =>
    intro input h y hy
    simp only [Sel.select] at hy
    rw [ascend_fold_eq _ ([], []) [] (fun ρ => Iff.rfl),
      List.nil_append] at hy
    obtain ⟨x, hx, hanc⟩ := ascendSpec_mem _ _ y hy
    exact validPath_ancestors d x (ih input h x hx) y hanc
  | wherein inner filt ihInner ihF =>
    intro input h y hy
    simp only [Sel.select] at hy
    exact valid_filter_case d inner _ ihInner input h y hy
  | union inner left right ihInner ihL ihR =>
    intro input h y hy
    simp only [Sel.select] at hy
    rw [union_fold_eq d left right _ ([], []) [] (fun ρ => Iff.rfl),
      List.nil_append] at hy
    obtain ⟨x, hx, hm⟩ := unionSpec_sub d left right _ [] y hy
    rcases hm with hm | hm
    · exact ihL x (ihInner input h x hx) y hm
    · exact ihR x (ihInner input h x hx) y hm
  | intersect inner left right ihInner ihL ihR =>
    intro input h y hy
    simp only [Sel.select] at hy
    suffices H : ∀ (ms : List JsonPath), (∀ x ∈ ms, ValidPath d x) →
        ∀ (acc : List JsonPath × List NRef × List NRef),
        (∀ z ∈ acc.1, ValidPath d z) →
        ∀ y ∈ (ms.foldl (fun acc x =>
          let a1 := (Sel.select d left x).foldl
            (fun (a : List JsonPath × List NRef × List NRef) y =>
              (if y.ref ∈ a.2.2 then a.1 ++ [y] else a.1,
               y.ref :: a.2.1, a.2.2)) acc
          (Sel.select d right x).foldl
            (fun a y =>
              (if y.ref ∈ a.2.1 then a.1 ++ [y] else a.1,
               a.2.1, y.ref :: a.2.2)) a1) acc).1, ValidPath d y by
      exact H _ (fun x hx => ihInner input h x hx) ([], [], [])
        (fun z hz => absurd hz (List.not_mem_nil _)) y hy
    intro ms
    induction ms with
    | nil => intro hv acc hacc y hy; exact hacc y hy
    | cons x t iht =>
      intro hv acc hacc y hy
      rw [List.foldl_cons] at hy
      refine iht (fun z hz => hv z (List.mem_cons_of_mem _ hz)) _ ?_ y hy
      intro z hz
      have hxv := hv x (List.mem_cons_self _ _)
      rcases foldl_pass_sub (fun a => a.1) _
        (fun (a : List JsonPath × List NRef × List NRef) y => by
          by_cases hc : y.ref ∈ a.2.1
          · right; simp [hc]
          · left; simp [hc])
        (Sel.select d right x) _ z hz with hz' | hz'
      · rcases foldl_pass_sub (fun a => a.1) _
          (fun (a : List JsonPath × List NRef × List NRef) y => by
            by_cases hc : y.ref ∈ a.2.2
            · right; simp [hc]
            · left; simp [hc])
          (Sel.select d left x) acc z hz' with hz'' | hz''
        · exact hacc z hz''
        · exact ihL x hxv z hz''
      · exact ihR x hxv z hz'
  | diff inner left right ihInner ihL ihR =>
    intro input h y hy
    simp only [Sel.select] at hy
    rcases diff_fold_sub (Sel.select d left) _ _ [] y hy with hz | ⟨x, hx, hm⟩
    · exact absurd hz (List.not_mem_nil _)
    · exact ihL x (ihInner input h x hx) y hm
  | and inner left right ihInner ihL ihR =>
    intro input h y hy
    rw [and_select_eq] at hy
    split at hy
    · rw [List.mem_singleton] at hy
      subst hy
      exact validPath_descendant d input NRef.sentinel h rfl
    · exact absurd hy (List.not_mem_nil _)
  | or inner left right ihInner ihL ihR =>
    intro input h y hy
    rw [or_select_eq] at hy
    split at hy
    · rw [List.mem_singleton] at hy
      subst hy
      exact validPath_descendant d input NRef.sentinel h rfl
    · exact absurd hy (List.not_mem_nil _)

theorem filterMap_length_of_isSome {α β : Type} (f : α → Option β) :
    ∀ (L : List α), (∀ y ∈ L, (f y).isSome) →
      (L.filterMap f).length = L.length := by
  intro L
  induction L with
  | nil => simp
  | cons a t ih =>
    intro h
    rw [List.filterMap_cons]
    cases hf : f a with
    | none => exact absurd (h a (List.mem_cons_self _ _)) (by simp [hf])
    | some b =>
      simp only [List.length_cons]
      rw [ih (fun y hy => h y (List.mem_cons_of_mem _ hy))]

/-- C9: evaluation is total and has no failure channel: starting from any
valid path, every path a selector emits is valid (every node reference it
carries dereferences into the document, or is the static sentinel), and
`query` silently collects exactly one node per emitted match — a selector
that cannot proceed contributes zero matches, never an error. -/
theorem select_total (d : Json) (s : Sel) (input : JsonPath)
    (h : ValidPath d input) :
    (∀ y ∈ Sel.select d s input, ValidPath d y)
    ∧ (query d s).length
        = (Sel.select d s (JsonPath.root (NRef.doc []))).length := by
  refine ⟨select_valid d s input h, ?_⟩
  rw [query]
  refine filterMap_length_of_isSome _ _ ?_
  intro y hy
  have hroot : ValidPath d (JsonPath.root (NRef.doc [])) := by
    intro ρ hρ
    rw [JsonPath.refs] at hρ
    rw [List.mem_singleton.mp hρ]
    rfl
  have hv := select_valid d s _ hroot y hy
  refine hv y.ref ?_
  cases y with
  | root r => exact List.mem_cons_self _ _
  | descendant r p => exact List.mem_cons_self _ _

/-- Witness for C9: a `key` lookup that cannot proceed on document `[null]`
still evaluates, yielding zero matches and an empty result vector. -/
theorem select_total_witness :
    (∀ y ∈ Sel.select (Json.array [Json.null])
        (Sel.key (Sel.child Sel.node) "missing")
        (JsonPath.root (NRef.doc [])),
      ValidPath (Json.array [Json.null]) y)
    ∧ (query (Json.array [Json.null])
        (Sel.key (Sel.child Sel.node) "missing")).length
      = (Sel.select (Json.array [Json.null])
          (Sel.key (Sel.child Sel.node) "missing")
          (JsonPath.root (NRef.doc []))).length :=
  select_total (Json.array [Json.null])
    (Sel.key (Sel.child Sel.node) "missing")
    (JsonPath.root (NRef.doc [])) (by decide)

theorem pos_append_cons_ne (p : Pos) (k : Nat) (t : Pos) :
    p ++ k :: t ≠ p := by
  intro h
  have := congrArg List.length h
  simp at this

theorem pos_append_cons_inj (p : Pos) (a b : Nat) (u v : Pos)
    (h : p ++ a :: u = p ++ b :: v) : a = b ∧ u = v := by
  have h2 := List.append_cancel_left h
  injection h2 with h3 h4
  exact ⟨h3, h4⟩

theorem pos_sandwich_nil (p t1 t2 : Pos) (h : (p ++ t1) ++ t2 = p) :
    t1 = [] ∧ t2 = [] := by
  have := congrArg List.length h
  simp only [List.length_append] at this
  constructor <;> rw [← List.length_eq_zero] <;> omega

theorem pos_snoc_eq_append (q p t : Pos) (k : Nat)
    (h : q ++ [k] = p ++ t) (ht : t ≠ []) :
    ∃ t', t = t' ++ [k] ∧ q = p ++ t' := by
  rcases List.eq_nil_or_concat t with rfl | ⟨t', a, rfl⟩
  · exact absurd rfl ht
  · rw [List.concat_eq_append, ← List.append_assoc] at h
    obtain ⟨h1, h2⟩ := List.append_inj' h (by simp)
    injection h2 with h3
    subst h3
    exact ⟨t', List.concat_eq_append t' k, h1⟩

theorem pos_comparable (a q r : Pos) (t1 t2 : Pos)
    (h1 : r = a ++ t1) (h2 : r = q ++ t2) :
    (∃ u, q = a ++ u) ∨ (∃ u, a = q ++ u) := by
  induction a generalizing q r with
  | nil => exact Or.inl ⟨q, rfl⟩
  | cons x a' ih =>
    cases q with
    | nil => exact Or.inr ⟨x :: a', rfl⟩
    | cons y q' =>
      rw [List.cons_append] at h1
      rw [List.cons_append] at h2
      subst h1
      injection h2 with hxy htl
      subst hxy
      rcases ih q' _ rfl htl with ⟨u, hu⟩ | ⟨u, hu⟩
      · exact Or.inl ⟨u, by rw [List.cons_append, hu]⟩
      · exact Or.inr ⟨u, by rw [List.cons_append, hu]⟩

theorem preDesc_shape :
    (∀ (j : Json) (p : Pos), ∀ r ∈ preDesc j p, ∃ k t, r = p ++ k :: t) := by
  have main := preDesc.induct
    (fun j p => ∀ r ∈ preDesc j p, ∃ k t, r = p ++ k :: t)
    (fun cs i p => ∀ r ∈ preKids cs i p, ∃ k t, i ≤ k ∧ r = p ++ k :: t)
  have conc := main ?_ ?_ ?_ ?_ ?_
  · exact conc
  · intro p entries ih r hr
    rw [preDesc.eq_def] at hr
    obtain ⟨k, t, _, ht⟩ := ih r hr
    exact ⟨k, t, ht⟩
  · intro p elems ih r hr
    rw [preDesc.eq_def] at hr
    obtain ⟨k, t, _, ht⟩ := ih r hr
    exact ⟨k, t, ht⟩
  · intro j p hno hna r hr
    rw [preDesc.eq_def] at hr
    cases j with
    | object entries => exact absurd rfl (hno entries)
    | array elems => exact absurd rfl (hna elems)
    | null => exact absurd hr (List.not_mem_nil _)
    | boolean b => exact absurd hr (List.not_mem_nil _)
    | u64 n => exact absurd hr (List.not_mem_nil _)
    | i64 n => exact absurd hr (List.not_mem_nil _)
    | string str => exact absurd hr (List.not_mem_nil _)
  · intro i p r hr
    rw [preKids.eq_def] at hr
    exact absurd hr (List.not_mem_nil _)
  · intro i p c rest ih1 ih2 r hr
    rw [preKids.eq_def] at hr
    rcases List.mem_cons.mp hr with rfl | hr
    · exact ⟨i, [], Nat.le_refl i, rfl⟩
    · rcases List.mem_append.mp hr with hr | hr
      · obtain ⟨k, t, ht⟩ := ih1 r hr
        refine ⟨i, k :: t, Nat.le_refl i, ?_⟩
        rw [ht, List.append_assoc]
        rfl
      · obtain ⟨k, t, hik, ht⟩ := ih2 r hr
        exact ⟨k, t, Nat.le_of_succ_le hik, ht⟩

theorem preKids_shape (cs : List Json) (i : Nat) (p : Pos) :
    ∀ r ∈ preKids cs i p, ∃ k t, i ≤ k ∧ r = p ++ k :: t := by
  induction cs generalizing i with
  | nil =>
    intro r hr
    rw [preKids.eq_def] at hr
    exact absurd hr (List.not_mem_nil _)
  | cons c rest ih =>
    intro r hr
    rw [preKids.eq_def] at hr
    rcases List.mem_cons.mp hr with rfl | hr
    · exact ⟨i, [], Nat.le_refl i, rfl⟩
    · rcases List.mem_append.mp hr with hr | hr
      · obtain ⟨k, t, ht⟩ := preDesc_shape c (p ++ [i]) r hr
        refine ⟨i, k :: t, Nat.le_refl i, ?_⟩
        rw [ht, List.append_assoc]
        rfl
      · obtain ⟨k, t, hik, ht⟩ := ih (i + 1) r hr
        exact ⟨k, t, Nat.le_of_succ_le hik, ht⟩

theorem bodiedSpec_shape :
    (∀ (j : Json) (p : Pos) (s : List NRef),
      ∀ r ∈ bodiedSpec j p s, r = p ∨ r ∈ preDesc j p) := by
  have main := bodiedSpec.induct
    (fun j p s => ∀ r ∈ bodiedSpec j p s, r = p ∨ r ∈ preDesc j p)
    (fun cs i p s => ∀ r ∈ bodiedKids cs i p s, r ∈ preKids cs i p)
  have conc := main ?_ ?_ ?_ ?_ ?_ ?_
  · exact conc
  · intro j p s hmem r hr
    rw [bodiedSpec.eq_def, if_pos hmem] at hr
    exact absurd hr (List.not_mem_nil _)
  · intro p s hmem entries ih r hr
    rw [bodiedSpec.eq_def, if_neg hmem] at hr
    rcases List.mem_cons.mp hr with rfl | hr
    · exact Or.inl rfl
    · rw [preDesc.eq_def]
      exact Or.inr (ih r hr)
  · intro p s hmem elems ih r hr
    rw [bodiedSpec.eq_def, if_neg hmem] at hr
    rcases List.mem_cons.mp hr with rfl | hr
    · exact Or.inl rfl
    · rw [preDesc.eq_def]
      exact Or.inr (ih r hr)
  · intro j p s hmem hno hna r hr
    rw [bodiedSpec.eq_def, if_neg hmem] at hr
    cases j with
    | object entries => exact absurd rfl (hno entries)
    | array elems => exact absurd rfl (hna elems)
    | null => exact Or.inl (List.mem_singleton.mp hr)
    | boolean b => exact Or.inl (List.mem_singleton.mp hr)
    | u64 n => exact Or.inl (List.mem_singleton.mp hr)
    | i64 n => exact Or.inl (List.mem_singleton.mp hr)
    | string str => exact Or.inl (List.mem_singleton.mp hr)
  · intro i p s r hr
    rw [bodiedKids.eq_def] at hr
    exact absurd hr (List.not_mem_nil _)
  · intro i p s c rest ih1 ih2 r hr
    rw [bodiedKids.eq_def] at hr
    rw [preKids.eq_def]
    rcases List.mem_append.mp hr with hr | hr
    · rcases ih1 r hr with rfl | hr'
      · exact List.mem_cons_self _ _
      · exact List.mem_cons_of_mem _ (List.mem_append_left _ hr')
    · exact List.mem_cons_of_mem _ (List.mem_append_right _ (ih2 r hr))

theorem bodiedSpec_fresh :
    (∀ (j : Json) (p : Pos) (s : List NRef),
      ∀ r ∈ bodiedSpec j p s, NRef.doc r ∉ s) := by
  have main := bodiedSpec.induct
    (fun j p s => ∀ r ∈ bodiedSpec j p s, NRef.doc r ∉ s)
    (fun cs i p s => ∀ r ∈ bodiedKids cs i p s, NRef.doc r ∉ s)
  have conc := main ?_ ?_ ?_ ?_ ?_ ?_
  · exact conc
  · intro j p s hmem r hr
    rw [bodiedSpec.eq_def, if_pos hmem] at hr
    exact absurd hr (List.not_mem_nil _)
  · intro p s hmem entries ih r hr
    rw [bodiedSpec.eq_def, if_neg hmem] at hr
    rcases List.mem_cons.mp hr with rfl | hr
    · exact hmem
    · exact ih r hr
  · intro p s hmem elems ih r hr
    rw [bodiedSpec.eq_def, if_neg hmem] at hr
    rcases List.mem_cons.mp hr with rfl | hr
    · exact hmem
    · exact ih r hr
  · intro j p s hmem hno hna r hr
    rw [bodiedSpec.eq_def, if_neg hmem] at hr
    cases j with
    | object entries => exact absurd rfl (hno entries)
    | array elems => exact absurd rfl (hna elems)
    | null => rw [List.mem_singleton.mp hr]; exact hmem
    | boolean b => rw [List.mem_singleton.mp hr]; exact hmem
    | u64 n => rw [List.mem_singleton.mp hr]; exact hmem
    | i64 n => rw [List.mem_singleton.mp hr]; exact hmem
    | string str => rw [List.mem_singleton.mp hr]; exact hmem
  · intro i p s r hr
    rw [bodiedKids.eq_def] at hr
    exact absurd hr (List.not_mem_nil _)
  · intro i p s c rest ih1 ih2 r hr
    rw [bodiedKids.eq_def] at hr
    rcases List.mem_append.mp hr with hr | hr
    · exact ih1 r hr
    · exact ih2 r hr

theorem self_mem_bodiedSpec (j : Json) (p : Pos) (s : List NRef)
    (hps : NRef.doc p ∉ s) : p ∈ bodiedSpec j p s := by
  rw [bodiedSpec.eq_def, if_neg hps]
  cases j with
  | object entries => exact List.mem_cons_self _ _
  | array elems => exact List.mem_cons_self _ _
  | null => exact List.mem_singleton.mpr rfl
  | boolean b => exact List.mem_singleton.mpr rfl
  | u64 n => exact List.mem_singleton.mpr rfl
  | i64 n => exact List.mem_singleton.mpr rfl
  | string str => exact List.mem_singleton.mpr rfl

theorem emittedSpec_parent :
    (∀ (j : Json) (p : Pos) (s : List NRef),
      ∀ r ∈ emittedSpec j p s,
        ∃ q k, r = q ++ [k] ∧ q ∈ bodiedSpec j p s) := by
  have main := emittedSpec.induct
    (fun j p s => ∀ r ∈ emittedSpec j p s,
      ∃ q k, r = q ++ [k] ∧ q ∈ bodiedSpec j p s)
    (fun cs i p s => ∀ r ∈ emittedKids cs i p s,
      ∃ q k, r = q ++ [k] ∧ (q = p ∨ q ∈ bodiedKids cs i p s))
  have conc := main ?_ ?_ ?_ ?_ ?_ ?_
  · exact conc
  · intro j p s hmem r hr
    rw [emittedSpec.eq_def, if_pos hmem] at hr
    exact absurd hr (List.not_mem_nil _)
  · intro p s hmem entries ih r hr
    rw [emittedSpec.eq_def, if_neg hmem] at hr
    obtain ⟨q, k, hqk, hq⟩ := ih r hr
    refine ⟨q, k, hqk, ?_⟩
    rw [bodiedSpec.eq_def, if_neg hmem]
    rcases hq with rfl | hq
    · exact List.mem_cons_self _ _
    · exact List.mem_cons_of_mem _ hq
  · intro p s hmem elems ih r hr
    rw [emittedSpec.eq_def, if_neg hmem] at hr
    obtain ⟨q, k, hqk, hq⟩ := ih r hr
    refine ⟨q, k, hqk, ?_⟩
    rw [bodiedSpec.eq_def, if_neg hmem]
    rcases hq with rfl | hq
    · exact List.mem_cons_self _ _
    · exact List.mem_cons_of_mem _ hq
  · intro j p s hmem hno hna r hr
    rw [emittedSpec.eq_def, if_neg hmem] at hr
    cases j with
    | object entries => exact absurd rfl (hno entries)
    | array elems => exact absurd rfl (hna elems)
    | null => exact absurd hr (List.not_mem_nil _)
    | boolean b => exact absurd hr (List.not_mem_nil _)
    | u64 n => exact absurd hr (List.not_mem_nil _)
    | i64 n => exact absurd hr (List.not_mem_nil _)
    | string str => exact absurd hr (List.not_mem_nil _)
  · intro i p s r hr
    rw [emittedKids.eq_def] at hr
    exact absurd hr (List.not_mem_nil _)
  · intro i p s c rest ih1 ih2 r hr
    rw [emittedKids.eq_def] at hr
    rw [bodiedKids.eq_def]
    rcases List.mem_cons.mp hr with rfl | hr
    · exact ⟨p, i, rfl, Or.inl rfl⟩
    · rcases List.mem_append.mp hr with hr | hr
      · obtain ⟨q, k, hqk, hq⟩ := ih1 r hr
        exact ⟨q, k, hqk, Or.inr (List.mem_append_left _ hq)⟩
      · obtain ⟨q, k, hqk, hq⟩ := ih2 r hr
        rcases hq with rfl | hq
        · exact ⟨q, k, hqk, Or.inl rfl⟩
        · exact ⟨q, k, hqk, Or.inr (List.mem_append_right _ hq)⟩

theorem emittedSpec_sublist :
    (∀ (j : Json) (p : Pos) (s : List NRef),
      (emittedSpec j p s).Sublist (preDesc j p)) := by
  have main := emittedSpec.induct
    (fun j p s => (emittedSpec j p s).Sublist (preDesc j p))
    (fun cs i p s => (emittedKids cs i p s).Sublist (preKids cs i p))
  have conc := main ?_ ?_ ?_ ?_ ?_ ?_
  · exact conc
  · intro j p s hmem
    rw [emittedSpec.eq_def, if_pos hmem]
    exact List.nil_sublist _
  · intro p s hmem entries ih
    rw [emittedSpec.eq_def, if_neg hmem, preDesc.eq_def]
    exact ih
  · intro p s hmem elems ih
    rw [emittedSpec.eq_def, if_neg hmem, preDesc.eq_def]
    exact ih
  · intro j p s hmem hno hna
    rw [emittedSpec.eq_def, if_neg hmem]
    cases j with
    | object entries => exact absurd rfl (hno entries)
    | array elems => exact absurd rfl (hna elems)
    | null => exact List.nil_sublist _
    | boolean b => exact List.nil_sublist _
    | u64 n => exact List.nil_sublist _
    | i64 n => exact List.nil_sublist _
    | string str => exact List.nil_sublist _
  · intro i p s
    rw [emittedKids.eq_def, preKids.eq_def]
  · intro i p s c rest ih1 ih2
    rw [emittedKids.eq_def, preKids.eq_def]
    exact List.Sublist.cons₂ _ (List.Sublist.append ih1 ih2)

theorem emittedSpec_nil_seen :
    (∀ (j : Json) (p : Pos), emittedSpec j p [] = preDesc j p) := by
  have main := emittedSpec.induct
    (fun j p s => s = [] → emittedSpec j p s = preDesc j p)
    (fun cs i p s => s = [] → emittedKids cs i p s = preKids cs i p)
  have conc := main ?_ ?_ ?_ ?_ ?_ ?_
  · exact fun j p => conc j p [] rfl
  · intro j p s hmem hs
    subst hs
    exact absurd hmem (List.not_mem_nil _)
  · intro p s hmem entries ih hs
    rw [emittedSpec.eq_def, if_neg hmem, preDesc.eq_def]
    exact ih hs
  · intro p s hmem elems ih hs
    rw [emittedSpec.eq_def, if_neg hmem, preDesc.eq_def]
    exact ih hs
  · intro j p s hmem hno hna hs
    rw [emittedSpec.eq_def, if_neg hmem, preDesc.eq_def]
    cases j with
    | object entries => exact absurd rfl (hno entries)
    | array elems => exact absurd rfl (hna elems)
    | null => rfl
    | boolean b => rfl
    | u64 n => rfl
    | i64 n => rfl
    | string str => rfl
  · intro i p s hs
    rw [emittedKids.eq_def, preKids.eq_def]
  · intro i p s c rest ih1 ih2 hs
    rw [emittedKids.eq_def, preKids.eq_def]
    show (p ++ [i]) :: (emittedSpec c (p ++ [i]) s ++ emittedKids rest (i + 1) p s)
      = (p ++ [i]) :: (preDesc c (p ++ [i]) ++ preKids rest (i + 1) p)
    rw [ih1 hs, ih2 hs]

theorem preDesc_nodup :
    (∀ (j : Json) (p : Pos), (preDesc j p).Nodup) := by
  have main := preDesc.induct
    (fun j p => (preDesc j p).Nodup)
    (fun cs i p => (preKids cs i p).Nodup)
  have conc := main ?_ ?_ ?_ ?_ ?_
  · exact conc
  · intro p entries ih
    rw [preDesc.eq_def]
    exact ih
  · intro p elems ih
    rw [preDesc.eq_def]
    exact ih
  · intro j p hno hna
    rw [preDesc.eq_def]
    cases j with
    | object entries => exact absurd rfl (hno entries)
    | array elems => exact absurd rfl (hna elems)
    | null => exact List.nodup_nil
    | boolean b => exact List.nodup_nil
    | u64 n => exact List.nodup_nil
    | i64 n => exact List.nodup_nil
    | string str => exact List.nodup_nil
  · intro i p
    rw [preKids.eq_def]
    exact List.nodup_nil
  · intro i p c rest ih1 ih2
    rw [preKids.eq_def]
    rw [List.nodup_cons, List.nodup_append]
    refine ⟨?_, ih1, ih2, ?_⟩
    · intro hmem
      rcases List.mem_append.mp hmem with hr | hr
      · obtain ⟨k, t, ht⟩ := preDesc_shape c (p ++ [i]) _ hr
        exact pos_append_cons_ne (p ++ [i]) k t ht.symm
      · obtain ⟨k, t, hik, ht⟩ := preKids_shape rest (i + 1) p _ hr
        obtain ⟨hik2, -⟩ := pos_append_cons_inj p i k [] t ht
        omega
    · intro r hr1 hr2
      obtain ⟨k, t, ht⟩ := preDesc_shape c (p ++ [i]) r hr1
      obtain ⟨k', t', hik', ht'⟩ := preKids_shape rest (i + 1) p r hr2
      rw [List.append_assoc] at ht
      rw [ht] at ht'
      obtain ⟨hik2, -⟩ := pos_append_cons_inj p i k' (k :: t) t' ht'
      omega

theorem bodiedSpec_congr :
    (∀ (j : Json) (p : Pos) (s : List NRef), ∀ (s2 : List NRef),
      (∀ t : Pos, NRef.doc (p ++ t) ∈ s ↔ NRef.doc (p ++ t) ∈ s2) →
      bodiedSpec j p s = bodiedSpec j p s2) := by
  have main := bodiedSpec.induct
    (fun j p s => ∀ s2,
      (∀ t : Pos, NRef.doc (p ++ t) ∈ s ↔ NRef.doc (p ++ t) ∈ s2) →
      bodiedSpec j p s = bodiedSpec j p s2)
    (fun cs i p s => ∀ s2,
      (∀ k t, i ≤ k →
        (NRef.doc (p ++ k :: t) ∈ s ↔ NRef.doc (p ++ k :: t) ∈ s2)) →
      bodiedKids cs i p s = bodiedKids cs i p s2)
  have conc := main ?_ ?_ ?_ ?_ ?_ ?_
  · exact conc
  · intro j p s hmem s2 hcond
    have hmem2 : NRef.doc p ∈ s2 := by
      have := (hcond []).mp (by rwa [List.append_nil])
      rwa [List.append_nil] at this
    rw [bodiedSpec.eq_def, if_pos hmem, bodiedSpec.eq_def, if_pos hmem2]
  · intro p s hmem entries ih s2 hcond
    have hmem2 : NRef.doc p ∉ s2 := fun hc => hmem (by
      have := (hcond []).mpr (by rwa [List.append_nil])
      rwa [List.append_nil] at this)
    rw [bodiedSpec.eq_def, if_neg hmem, bodiedSpec.eq_def, if_neg hmem2]
    show p :: bodiedKids (entries.map Prod.snd) 0 p s
      = p :: bodiedKids (entries.map Prod.snd) 0 p s2
    rw [ih s2 (fun k t _ => hcond (k :: t))]
  · intro p s hmem elems ih s2 hcond
    have hmem2 : NRef.doc p ∉ s2 := fun hc => hmem (by
      have := (hcond []).mpr (by rwa [List.append_nil])
      rwa [List.append_nil] at this)
    rw [bodiedSpec.eq_def, if_neg hmem, bodiedSpec.eq_def, if_neg hmem2]
    show p :: bodiedKids elems 0 p s = p :: bodiedKids elems 0 p s2
    rw [ih s2 (fun k t _ => hcond (k :: t))]
  · intro j p s hmem hno hna s2 hcond
    have hmem2 : NRef.doc p ∉ s2 := fun hc => hmem (by
      have := (hcond []).mpr (by rwa [List.append_nil])
      rwa [List.append_nil] at this)
    rw [bodiedSpec.eq_def, if_neg hmem, bodiedSpec.eq_def, if_neg hmem2]
    cases j with
    | object entries => exact absurd rfl (hno entries)
    | array elems => exact absurd rfl (hna elems)
    | null => rfl
    | boolean b => rfl
    | u64 n => rfl
    | i64 n => rfl
    | string str => rfl
  · intro i p s s2 hcond
    rw [bodiedKids.eq_def, bodiedKids.eq_def]
  · intro i p s c rest ih1 ih2 s2 hcond
    rw [bodiedKids.eq_def, bodiedKids.eq_def]
    show bodiedSpec c (p ++ [i]) s ++ bodiedKids rest (i + 1) p s
      = bodiedSpec c (p ++ [i]) s2 ++ bodiedKids rest (i + 1) p s2
    rw [ih1 s2 (fun t => by
        have := hcond i t (Nat.le_refl i)
        rw [List.append_assoc]
        exact this),
      ih2 s2 (fun k t hk => hcond k t (Nat.le_of_succ_le hk))]

theorem emittedSpec_congr :
    (∀ (j : Json) (p : Pos) (s : List NRef), ∀ (s2 : List NRef),
      (∀ t : Pos, NRef.doc (p ++ t) ∈ s ↔ NRef.doc (p ++ t) ∈ s2) →
      emittedSpec j p s = emittedSpec j p s2) := by
  have main := emittedSpec.induct
    (fun j p s => ∀ s2,
      (∀ t : Pos, NRef.doc (p ++ t) ∈ s ↔ NRef.doc (p ++ t) ∈ s2) →
      emittedSpec j p s = emittedSpec j p s2)
    (fun cs i p s => ∀ s2,
      (∀ k t, i ≤ k →
        (NRef.doc (p ++ k :: t) ∈ s ↔ NRef.doc (p ++ k :: t) ∈ s2)) →
      emittedKids cs i p s = emittedKids cs i p s2)
  have conc := main ?_ ?_ ?_ ?_ ?_ ?_
  · exact conc
  · intro j p s hmem s2 hcond
    have hmem2 : NRef.doc p ∈ s2 := by
      have := (hcond []).mp (by rwa [List.append_nil])
      rwa [List.append_nil] at this
    rw [emittedSpec.eq_def, if_pos hmem, emittedSpec.eq_def, if_pos hmem2]
  · intro p s hmem entries ih s2 hcond
    have hmem2 : NRef.doc p ∉ s2 := fun hc => hmem (by
      have := (hcond []).mpr (by rwa [List.append_nil])
      rwa [List.append_nil] at this)
    rw [emittedSpec.eq_def, if_neg hmem, emittedSpec.eq_def, if_neg hmem2]
    show emittedKids (entries.map Prod.snd) 0 p s
      = emittedKids (entries.map Prod.snd) 0 p s2
    rw [ih s2 (fun k t _ => hcond (k :: t))]
  · intro p s hmem elems ih s2 hcond
    have hmem2 : NRef.doc p ∉ s2 := fun hc => hmem (by
      have := (hcond []).mpr (by rwa [List.append_nil])
      rwa [List.append_nil] at this)
    rw [emittedSpec.eq_def, if_neg hmem, emittedSpec.eq_def, if_neg hmem2]
    show emittedKids elems 0 p s = emittedKids elems 0 p s2
    rw [ih s2 (fun k t _ => hcond (k :: t))]
  · intro j p s hmem hno hna s2 hcond
    have hmem2 : NRef.doc p ∉ s2 := fun hc => hmem (by
      have := (hcond []).mpr (by rwa [List.append_nil])
      rwa [List.append_nil] at this)
    rw [emittedSpec.eq_def, if_neg hmem, emittedSpec.eq_def, if_neg hmem2]
    cases j with
    | object entries => exact absurd rfl (hno entries)
    | array elems => exact absurd rfl (hna elems)
    | null => rfl
    | boolean b => rfl
    | u64 n => rfl
    | i64 n => rfl
    | string str => rfl
  · intro i p s s2 hcond
    rw [emittedKids.eq_def, emittedKids.eq_def]
  · intro i p s c rest ih1 ih2 s2 hcond
    rw [emittedKids.eq_def, emittedKids.eq_def]
    show (p ++ [i]) :: (emittedSpec c (p ++ [i]) s
        ++ emittedKids rest (i + 1) p s)
      = (p ++ [i]) :: (emittedSpec c (p ++ [i]) s2
        ++ emittedKids rest (i + 1) p s2)
    rw [ih1 s2 (fun t => by
        have := hcond i t (Nat.le_refl i)
        rw [List.append_assoc]
        exact this),
      ih2 s2 (fun k t hk => hcond k t (Nat.le_of_succ_le hk))]

theorem bodiedKids_congr (cs : List Json) (i : Nat) (p : Pos)
    (s s2 : List NRef)
    (hcond : ∀ k t, i ≤ k →
      (NRef.doc (p ++ k :: t) ∈ s ↔ NRef.doc (p ++ k :: t) ∈ s2)) :
    bodiedKids cs i p s = bodiedKids cs i p s2 := by
  induction cs generalizing i with
  | nil => rw [bodiedKids.eq_def, bodiedKids.eq_def]
  | cons c rest ih =>
    rw [bodiedKids.eq_def, bodiedKids.eq_def]
    show bodiedSpec c (p ++ [i]) s ++ bodiedKids rest (i + 1) p s
      = bodiedSpec c (p ++ [i]) s2 ++ bodiedKids rest (i + 1) p s2
    rw [bodiedSpec_congr c (p ++ [i]) s s2 (fun t => by
        have := hcond i t (Nat.le_refl i)
        rw [List.append_assoc]
        exact this),
      ih (i + 1) (fun k t hk => hcond k t (Nat.le_of_succ_le hk))]

theorem emittedKids_congr (cs : List Json) (i : Nat) (p : Pos)
    (s s2 : List NRef)
    (hcond : ∀ k t, i ≤ k →
      (NRef.doc (p ++ k :: t) ∈ s ↔ NRef.doc (p ++ k :: t) ∈ s2)) :
    emittedKids cs i p s = emittedKids cs i p s2 := by
  induction cs generalizing i with
  | nil => rw [emittedKids.eq_def, emittedKids.eq_def]
  | cons c rest ih =>
    rw [emittedKids.eq_def, emittedKids.eq_def]
    show (p ++ [i]) :: (emittedSpec c (p ++ [i]) s
        ++ emittedKids rest (i + 1) p s)
      = (p ++ [i]) :: (emittedSpec c (p ++ [i]) s2
        ++ emittedKids rest (i + 1) p s2)
    rw [emittedSpec_congr c (p ++ [i]) s s2 (fun t => by
        have := hcond i t (Nat.le_refl i)
        rw [List.append_assoc]
        exact this),
      ih (i + 1) (fun k t hk => hcond k t (Nat.le_of_succ_le hk))]

theorem bodiedKids_shape (cs : List Json) (i : Nat) (p : Pos)
    (s : List NRef) :
    ∀ r ∈ bodiedKids cs i p s, ∃ k t, i ≤ k ∧ r = p ++ k :: t := by
  induction cs generalizing i with
  | nil =>
    intro r hr
    rw [bodiedKids.eq_def] at hr
    exact absurd hr (List.not_mem_nil _)
  | cons c rest ih =>
    intro r hr
    rw [bodiedKids.eq_def] at hr
    rcases List.mem_append.mp hr with hr | hr
    · rcases bodiedSpec_shape c (p ++ [i]) s r hr with rfl | hr'
      · exact ⟨i, [], Nat.le_refl i, rfl⟩
      · obtain ⟨k, t, ht⟩ := preDesc_shape c (p ++ [i]) r hr'
        refine ⟨i, k :: t, Nat.le_refl i, ?_⟩
        rw [ht, List.append_assoc]
        rfl
    · obtain ⟨k, t, hik, ht⟩ := ih (i + 1) r hr
      exact ⟨k, t, Nat.le_of_succ_le hik, ht⟩

theorem descend_helper_spec :
    (∀ (j : Json) (x : JsonPath) (seen : List NRef),
      ∀ p, x.ref = NRef.doc p →
        ((descend_helper j x seen).1.map JsonPath.ref
          = (emittedSpec j p seen).map NRef.doc)
        ∧ (∀ ρ, ρ ∈ (descend_helper j x seen).2
            ↔ ρ ∈ seen ∨ ρ ∈ (bodiedSpec j p seen).map NRef.doc)) := by
  have main := descend_helper.induct
    (fun j x seen => ∀ p, x.ref = NRef.doc p →
      ((descend_helper j x seen).1.map JsonPath.ref
        = (emittedSpec j p seen).map NRef.doc)
      ∧ (∀ ρ, ρ ∈ (descend_helper j x seen).2
          ↔ ρ ∈ seen ∨ ρ ∈ (bodiedSpec j p seen).map NRef.doc))
    (fun cs i x seen => ∀ p, x.ref = NRef.doc p →
      ((descendKids cs i x seen).1.map JsonPath.ref
        = (emittedKids cs i p seen).map NRef.doc)
      ∧ (∀ ρ, ρ ∈ (descendKids cs i x seen).2
          ↔ ρ ∈ seen ∨ ρ ∈ (bodiedKids cs i p seen).map NRef.doc))
  have conc := main ?_ ?_ ?_ ?_ ?_ ?_
  · exact conc
  · intro j x seen hmem p hp
    rw [hp] at hmem
    rw [descend_helper.eq_def, hp, if_pos hmem,
      emittedSpec.eq_def, if_pos hmem, bodiedSpec.eq_def, if_pos hmem]
    exact ⟨rfl, fun ρ => by simp⟩
  · intro x seen hmem entries ih p hp
    rw [hp] at hmem
    have hcond : ∀ k t, 0 ≤ k →
        (NRef.doc (p ++ k :: t) ∈ NRef.doc p :: seen
          ↔ NRef.doc (p ++ k :: t) ∈ seen) := by
      intro k t _
      simp only [List.mem_cons]
      constructor
      · rintro (hc | hc)
        · injection hc with hc
          exact absurd hc (pos_append_cons_ne p k t)
        · exact hc
      · exact fun hc => Or.inr hc
    obtain ⟨ihe, ihs⟩ := ih p hp
    rw [hp] at ihe ihs
    constructor
    · rw [descend_helper.eq_def, hp, if_neg hmem]
      show (descendKids (entries.map Prod.snd) 0 x
        (NRef.doc p :: seen)).1.map JsonPath.ref = _
      rw [ihe, emittedKids_congr _ 0 p _ seen hcond,
        emittedSpec.eq_def, if_neg hmem]
    · intro ρ
      rw [descend_helper.eq_def, hp, if_neg hmem]
      show ρ ∈ (descendKids (entries.map Prod.snd) 0 x
        (NRef.doc p :: seen)).2 ↔ _
      rw [ihs ρ, bodiedKids_congr _ 0 p _ seen hcond,
        bodiedSpec.eq_def, if_neg hmem]
      show _ ↔ ρ ∈ seen ∨ ρ ∈ (p :: bodiedKids (entries.map Prod.snd)
        0 p seen).map NRef.doc
      simp only [List.mem_cons, List.map_cons]
      tauto
  · intro x seen hmem elems ih p hp
    rw [hp] at hmem
    have hcond : ∀ k t, 0 ≤ k →
        (NRef.doc (p ++ k :: t) ∈ NRef.doc p :: seen
          ↔ NRef.doc (p ++ k :: t) ∈ seen) := by
      intro k t _
      simp only [List.mem_cons]
      constructor
      · rintro (hc | hc)
        · injection hc with hc
          exact absurd hc (pos_append_cons_ne p k t)
        · exact hc
      · exact fun hc => Or.inr hc
    obtain ⟨ihe, ihs⟩ := ih p hp
    rw [hp] at ihe ihs
    constructor
    · rw [descend_helper.eq_def, hp, if_neg hmem]
      show (descendKids elems 0 x (NRef.doc p :: seen)).1.map JsonPath.ref
        = _
      rw [ihe, emittedKids_congr _ 0 p _ seen hcond,
        emittedSpec.eq_def, if_neg hmem]
    · intro ρ
      rw [descend_helper.eq_def, hp, if_neg hmem]
      show ρ ∈ (descendKids elems 0 x (NRef.doc p :: seen)).2 ↔ _
      rw [ihs ρ, bodiedKids_congr _ 0 p _ seen hcond,
        bodiedSpec.eq_def, if_neg hmem]
      show _ ↔ ρ ∈ seen ∨ ρ ∈ (p :: bodiedKids elems
        0 p seen).map NRef.doc
      simp only [List.mem_cons, List.map_cons]
      tauto
  · intro j x seen hmem hno hna p hp
    rw [hp] at hmem
    rw [descend_helper.eq_def, hp, if_neg hmem,
      emittedSpec.eq_def, if_neg hmem, bodiedSpec.eq_def, if_neg hmem]
    cases j with
    | object entries => exact absurd rfl (hno entries)
    | array elems => exact absurd rfl (hna elems)
    | null =>
      refine ⟨rfl, fun ρ => ?_⟩
      simp only [List.mem_cons, List.map_cons, List.map_nil,
        List.mem_singleton]
      tauto
    | boolean b =>
      refine ⟨rfl, fun ρ => ?_⟩
      simp only [List.mem_cons, List.map_cons, List.map_nil,
        List.mem_singleton]
      tauto
    | u64 n =>
      refine ⟨rfl, fun ρ => ?_⟩
      simp only [List.mem_cons, List.map_cons, List.map_nil,
        List.mem_singleton]
      tauto
    | i64 n =>
      refine ⟨rfl, fun ρ => ?_⟩
      simp only [List.mem_cons, List.map_cons, List.map_nil,
        List.mem_singleton]
      tauto
    | string str =>
      refine ⟨rfl, fun ρ => ?_⟩
      simp only [List.mem_cons, List.map_cons, List.map_nil,
        List.mem_singleton]
      tauto
  · intro i x seen p hp
    rw [descendKids.eq_def, emittedKids.eq_def, bodiedKids.eq_def]
    exact ⟨rfl, fun ρ => by simp⟩
  · intro i x seen c rest xc r1 ih1 ih1' ih2 p hp
    have hxc : (JsonPath.descendant (childRef x.ref i) x).ref
        = NRef.doc (p ++ [i]) := by
      rw [JsonPath.ref, hp, childRef]
    obtain ⟨ih1e, ih1s⟩ := ih1' (p ++ [i]) hxc
    obtain ⟨ih2e, ih2s⟩ := ih2 p hp
    have hcond : ∀ k t, i + 1 ≤ k →
        (NRef.doc (p ++ k :: t)
            ∈ (descend_helper c (JsonPath.descendant (childRef x.ref i) x)
              seen).2
          ↔ NRef.doc (p ++ k :: t) ∈ seen) := by
      intro k t hk
      rw [ih1s (NRef.doc (p ++ k :: t))]
      constructor
      · rintro (hc | hc)
        · exact hc
        · rw [List.mem_map] at hc
          obtain ⟨r, hr, hre⟩ := hc
          injection hre with hre
          subst hre
          rcases bodiedSpec_shape c (p ++ [i]) seen _ hr with he | hr'
          · obtain ⟨hik, -⟩ := pos_append_cons_inj p k i t [] he
            omega
          · obtain ⟨k', t', ht'⟩ := preDesc_shape c (p ++ [i]) _ hr'
            rw [List.append_assoc] at ht'
            obtain ⟨hik, -⟩ := pos_append_cons_inj p k i t (k' :: t') ht'
            omega
      · exact fun hc => Or.inl hc
    constructor
    · rw [descendKids.eq_def, emittedKids.eq_def]
      show (JsonPath.descendant (childRef x.ref i) x
          :: ((descend_helper c (JsonPath.descendant (childRef x.ref i) x)
              seen).1
            ++ (descendKids rest (i + 1) x
              (descend_helper c (JsonPath.descendant (childRef x.ref i) x)
                seen).2).1)).map JsonPath.ref
        = ((p ++ [i]) :: (emittedSpec c (p ++ [i]) seen
            ++ emittedKids rest (i + 1) p seen)).map NRef.doc
      rw [List.map_cons, List.map_cons, List.map_append, List.map_append,
        ih1e, ih2e, emittedKids_congr rest (i + 1) p _ seen hcond, hxc]
    · intro ρ
      rw [descendKids.eq_def, bodiedKids.eq_def]
      show ρ ∈ (descendKids rest (i + 1) x
          (descend_helper c (JsonPath.descendant (childRef x.ref i) x)
            seen).2).2 ↔ _
      rw [ih2s ρ, bodiedKids_congr rest (i + 1) p _ seen hcond, ih1s ρ]
      show _ ↔ ρ ∈ seen ∨ ρ ∈ (bodiedSpec c (p ++ [i]) seen
        ++ bodiedKids rest (i + 1) p seen).map NRef.doc
      rw [List.map_append, List.mem_append]
      tauto

theorem chainFree_restrict (s : List NRef) (p : Pos) (i : Nat) (r : Pos)
    (h : ChainFreeIncl s p r) : ChainFreeIncl s (p ++ [i]) r := by
  intro a t1 t2 ha hr
  refine h a (i :: t1) t2 ?_ hr
  rw [ha, List.append_assoc]
  rfl

theorem chainFree_extend (s : List NRef) (p : Pos) (i : Nat) (u r : Pos)
    (hps : NRef.doc p ∉ s) (hr : r = p ++ i :: u)
    (h : ChainFreeIncl s (p ++ [i]) r) : ChainFreeIncl s p r := by
  intro a t1 t2 ha hra
  cases t1 with
  | nil =>
    rw [List.append_nil] at ha
    subst ha
    exact hps
  | cons k t1' =>
    have heq : p ++ k :: (t1' ++ t2) = p ++ i :: u := by
      rw [← hr, hra, ha, List.append_assoc]
      rfl
    obtain ⟨hk, -⟩ := pos_append_cons_inj p k i (t1' ++ t2) u heq
    subst hk
    refine h a t1' t2 ?_ hra
    rw [ha, List.append_assoc]
    rfl

theorem chainFree_self (s : List NRef) (p r u : Pos) (hru : r = p ++ u)
    (h : ChainFreeIncl s p r) : NRef.doc p ∉ s :=
  h p [] u (List.append_nil p).symm hru

theorem chainFree_of_self (s : List NRef) (p : Pos)
    (hps : NRef.doc p ∉ s) : ChainFreeIncl s p p := by
  intro a t1 t2 ha hra
  obtain ⟨ht1, ht2⟩ := pos_sandwich_nil p t1 t2 (by rw [← ha]; exact hra.symm)
  subst ht1
  rw [List.append_nil] at ha
  subst ha
  exact hps

theorem bodiedSpec_chainFree :
    (∀ (j : Json) (p : Pos) (s : List NRef),
      ∀ r ∈ bodiedSpec j p s, ChainFreeIncl s p r) := by
  have main := bodiedSpec.induct
    (fun j p s => ∀ r ∈ bodiedSpec j p s, ChainFreeIncl s p r)
    (fun cs i p s => NRef.doc p ∉ s →
      ∀ r ∈ bodiedKids cs i p s, ChainFreeIncl s p r)
  have conc := main ?_ ?_ ?_ ?_ ?_ ?_
  · exact conc
  · intro j p s hmem r hr
    rw [bodiedSpec.eq_def, if_pos hmem] at hr
    exact absurd hr (List.not_mem_nil _)
  · intro p s hmem entries ih r hr
    rw [bodiedSpec.eq_def, if_neg hmem] at hr
    rcases List.mem_cons.mp hr with rfl | hr
    · exact chainFree_of_self s _ hmem
    · exact ih hmem r hr
  · intro p s hmem elems ih r hr
    rw [bodiedSpec.eq_def, if_neg hmem] at hr
    rcases List.mem_cons.mp hr with rfl | hr
    · exact chainFree_of_self s _ hmem
    · exact ih hmem r hr
  · intro j p s hmem hno hna r hr
    rw [bodiedSpec.eq_def, if_neg hmem] at hr
    cases j with
    | object entries => exact absurd rfl (hno entries)
    | array elems => exact absurd rfl (hna elems)
    | null =>
      rw [List.mem_singleton.mp hr]
      exact chainFree_of_self s p hmem
    | boolean b =>
      rw [List.mem_singleton.mp hr]
      exact chainFree_of_self s p hmem
    | u64 n =>
      rw [List.mem_singleton.mp hr]
      exact chainFree_of_self s p hmem
    | i64 n =>
      rw [List.mem_singleton.mp hr]
      exact chainFree_of_self s p hmem
    | string str =>
      rw [List.mem_singleton.mp hr]
      exact chainFree_of_self s p hmem
  · intro i p s hps r hr
    rw [bodiedKids.eq_def] at hr
    exact absurd hr (List.not_mem_nil _)
  · intro i p s c rest ih1 ih2 hps r hr
    rw [bodiedKids.eq_def] at hr
    rcases List.mem_append.mp hr with hr | hr
    · have hcf := ih1 r hr
      rcases bodiedSpec_shape c (p ++ [i]) s r hr with rfl | hr'
      · exact chainFree_extend s p i [] _ hps rfl hcf
      · obtain ⟨k, t, ht⟩ := preDesc_shape c (p ++ [i]) r hr'
        refine chainFree_extend s p i (k :: t) r hps ?_ hcf
        rw [ht, List.append_assoc]
        rfl
    · exact ih2 hps r hr

theorem mem_bodiedSpec_of_chainFree :
    (∀ (j : Json) (p : Pos), ∀ (s : List NRef) (r : Pos),
      r ∈ preDesc j p → ChainFreeIncl s p r → r ∈ bodiedSpec j p s) := by
  have main := preDesc.induct
    (fun j p => ∀ (s : List NRef) (r : Pos),
      r ∈ preDesc j p → ChainFreeIncl s p r → r ∈ bodiedSpec j p s)
    (fun cs i p => ∀ (s : List NRef) (r : Pos),
      r ∈ preKids cs i p → NRef.doc p ∉ s → ChainFreeIncl s p r →
      r ∈ bodiedKids cs i p s)
  have conc := main ?_ ?_ ?_ ?_ ?_
  · exact conc
  · intro p entries ih s r hr hcf
    rw [preDesc.eq_def] at hr
    obtain ⟨k, t, -, ht⟩ := preKids_shape _ 0 p r hr
    have hps : NRef.doc p ∉ s := chainFree_self s p r (k :: t) ht hcf
    rw [bodiedSpec.eq_def, if_neg hps]
    exact List.mem_cons_of_mem _ (ih s r hr hps hcf)
  · intro p elems ih s r hr hcf
    rw [preDesc.eq_def] at hr
    obtain ⟨k, t, -, ht⟩ := preKids_shape _ 0 p r hr
    have hps : NRef.doc p ∉ s := chainFree_self s p r (k :: t) ht hcf
    rw [bodiedSpec.eq_def, if_neg hps]
    exact List.mem_cons_of_mem _ (ih s r hr hps hcf)
  · intro j p hno hna s r hr hcf
    rw [preDesc.eq_def] at hr
    cases j with
    | object entries => exact absurd rfl (hno entries)
    | array elems => exact absurd rfl (hna elems)
    | null => exact absurd hr (List.not_mem_nil _)
    | boolean b => exact absurd hr (List.not_mem_nil _)
    | u64 n => exact absurd hr (List.not_mem_nil _)
    | i64 n => exact absurd hr (List.not_mem_nil _)
    | string str => exact absurd hr (List.not_mem_nil _)
  · intro i p s r hr hps hcf
    rw [preKids.eq_def] at hr
    exact absurd hr (List.not_mem_nil _)
  · intro i p c rest ih1 ih2 s r hr hps hcf
    rw [preKids.eq_def] at hr
    rw [bodiedKids.eq_def]
    rcases List.mem_cons.mp hr with rfl | hr
    · refine List.mem_append_left _ (self_mem_bodiedSpec c (p ++ [i]) s ?_)
      exact hcf (p ++ [i]) [i] [] rfl (List.append_nil _).symm
    · rcases List.mem_append.mp hr with hr | hr
      · exact List.mem_append_left _
          (ih1 s r hr (chainFree_restrict s p i r hcf))
      · exact List.mem_append_right _ (ih2 s r hr hps hcf)

theorem mem_emittedSpec_of_chainFree :
    (∀ (j : Json) (p : Pos), ∀ (s : List NRef) (r q : Pos) (k : Nat),
      r ∈ preDesc j p → r = q ++ [k] → ChainFreeIncl s p q →
      r ∈ emittedSpec j p s) := by
  have main := preDesc.induct
    (fun j p => ∀ (s : List NRef) (r q : Pos) (k : Nat),
      r ∈ preDesc j p → r = q ++ [k] → ChainFreeIncl s p q →
      r ∈ emittedSpec j p s)
    (fun cs i p => ∀ (s : List NRef) (r q : Pos) (k : Nat),
      r ∈ preKids cs i p → r = q ++ [k] → NRef.doc p ∉ s →
      ChainFreeIncl s p q → r ∈ emittedKids cs i p s)
  have conc := main ?_ ?_ ?_ ?_ ?_
  · exact conc
  · intro p entries ih s r q k hr hq hcf
    rw [preDesc.eq_def] at hr
    obtain ⟨k2, t2, -, ht2⟩ := preKids_shape _ 0 p r hr
    obtain ⟨t', -, hq'⟩ := pos_snoc_eq_append q p (k2 :: t2) k
      (by rw [← hq, ← ht2]) (by simp)
    have hps : NRef.doc p ∉ s := chainFree_self s p q t' hq' hcf
    rw [emittedSpec.eq_def, if_neg hps]
    exact ih s r q k hr hq hps hcf
  · intro p elems ih s r q k hr hq hcf
    rw [preDesc.eq_def] at hr
    obtain ⟨k2, t2, -, ht2⟩ := preKids_shape _ 0 p r hr
    obtain ⟨t', -, hq'⟩ := pos_snoc_eq_append q p (k2 :: t2) k
      (by rw [← hq, ← ht2]) (by simp)
    have hps : NRef.doc p ∉ s := chainFree_self s p q t' hq' hcf
    rw [emittedSpec.eq_def, if_neg hps]
    exact ih s r q k hr hq hps hcf
  · intro j p hno hna s r q k hr hq hcf
    rw [preDesc.eq_def] at hr
    cases j with
    | object entries => exact absurd rfl (hno entries)
    | array elems => exact absurd rfl (hna elems)
    | null => exact absurd hr (List.not_mem_nil _)
    | boolean b => exact absurd hr (List.not_mem_nil _)
    | u64 n => exact absurd hr (List.not_mem_nil _)
    | i64 n => exact absurd hr (List.not_mem_nil _)
    | string str => exact absurd hr (List.not_mem_nil _)
  · intro i p s r q k hr hq hps hcf
    rw [preKids.eq_def] at hr
    exact absurd hr (List.not_mem_nil _)
  · intro i p c rest ih1 ih2 s r q k hr hq hps hcf
    rw [preKids.eq_def] at hr
    rw [emittedKids.eq_def]
    rcases List.mem_cons.mp hr with rfl | hr
    · exact List.mem_cons_self _ _
    · rcases List.mem_append.mp hr with hr | hr
      · exact List.mem_cons_of_mem _ (List.mem_append_left _
          (ih1 s r q k hr hq (chainFree_restrict s p i q hcf)))
      · exact List.mem_cons_of_mem _ (List.mem_append_right _
          (ih2 s r q k hr hq hps hcf))

theorem preDesc_parent (j : Json) (p : Pos) (r : Pos)
    (hr : r ∈ preDesc j p) :
    ∃ q k, r = q ++ [k] ∧ (q = p ∨ q ∈ preDesc j p) := by
  rw [← emittedSpec_nil_seen j p] at hr
  obtain ⟨q, k, hqk, hq⟩ := emittedSpec_parent j p [] r hr
  exact ⟨q, k, hqk, bodiedSpec_shape j p [] q hq⟩

theorem preDesc_up (d : Json) :
    (∀ (j : Json) (p : Pos), getAt d p = some j →
      ∀ q ∈ preDesc j p, ∀ jq, getAt d q = some jq →
        ∀ r ∈ preDesc jq q, r ∈ preDesc j p) := by
  have main := preDesc.induct
    (fun j p => getAt d p = some j →
      ∀ q ∈ preDesc j p, ∀ jq, getAt d q = some jq →
        ∀ r ∈ preDesc jq q, r ∈ preDesc j p)
    (fun cs i p => (∀ k c, cs[k]? = some c →
        getAt d (p ++ [i + k]) = some c) →
      ∀ q ∈ preKids cs i p, ∀ jq, getAt d q = some jq →
        ∀ r ∈ preDesc jq q, r ∈ preKids cs i p)
  have conc := main ?_ ?_ ?_ ?_ ?_
  · exact conc
  · intro p entries ih hco q hq jq hjq r hr
    rw [preDesc.eq_def] at hq ⊢
    refine ih (fun k c hkc => ?_) q hq jq hjq r hr
    rw [Nat.zero_add]
    exact getAt_child d p _ k c hco hkc
  · intro p elems ih hco q hq jq hjq r hr
    rw [preDesc.eq_def] at hq ⊢
    refine ih (fun k c hkc => ?_) q hq jq hjq r hr
    rw [Nat.zero_add]
    exact getAt_child d p _ k c hco hkc
  · intro j p hno hna hco q hq jq hjq r hr
    rw [preDesc.eq_def] at hq
    cases j with
    | object entries => exact absurd rfl (hno entries)
    | array elems => exact absurd rfl (hna elems)
    | null => exact absurd hq (List.not_mem_nil _)
    | boolean b => exact absurd hq (List.not_mem_nil _)
    | u64 n => exact absurd hq (List.not_mem_nil _)
    | i64 n => exact absurd hq (List.not_mem_nil _)
    | string str => exact absurd hq (List.not_mem_nil _)
  · intro i p hco q hq jq hjq r hr
    rw [preKids.eq_def] at hq
    exact absurd hq (List.not_mem_nil _)
  · intro i p c rest ih1 ih2 hco q hq jq hjq r hr
    rw [preKids.eq_def] at hq ⊢
    have hc0 : getAt d (p ++ [i]) = some c := by
      have := hco 0 c (by simp)
      rwa [Nat.add_zero] at this
    rcases List.mem_cons.mp hq with rfl | hq
    · have hjc : jq = c := by
        rw [hjq] at hc0
        injection hc0
      subst hjc
      exact List.mem_cons_of_mem _ (List.mem_append_left _ hr)
    · rcases List.mem_append.mp hq with hq | hq
      · exact List.mem_cons_of_mem _ (List.mem_append_left _
          (ih1 hc0 q hq jq hjq r hr))
      · refine List.mem_cons_of_mem _ (List.mem_append_right _
          (ih2 (fun k c' hkc => ?_) q hq jq hjq r hr))
        have := hco (k + 1) c' (by simpa using hkc)
        rwa [show i + (k + 1) = i + 1 + k by omega] at this

theorem preDesc_down (d : Json) :
    (∀ (j : Json) (p : Pos), getAt d p = some j →
      ∀ r ∈ preDesc j p, ∀ a t1 t2, a = p ++ t1 → t1 ≠ [] →
        r = a ++ t2 → t2 ≠ [] →
        ∃ ja, getAt d a = some ja ∧ r ∈ preDesc ja a) := by
  have main := preDesc.induct
    (fun j p => getAt d p = some j →
      ∀ r ∈ preDesc j p, ∀ a t1 t2, a = p ++ t1 → t1 ≠ [] →
        r = a ++ t2 → t2 ≠ [] →
        ∃ ja, getAt d a = some ja ∧ r ∈ preDesc ja a)
    (fun cs i p => (∀ k c, cs[k]? = some c →
        getAt d (p ++ [i + k]) = some c) →
      ∀ r ∈ preKids cs i p, ∀ a t1 t2, a = p ++ t1 → t1 ≠ [] →
        r = a ++ t2 → t2 ≠ [] →
        ∃ ja, getAt d a = some ja ∧ r ∈ preDesc ja a)
  have conc := main ?_ ?_ ?_ ?_ ?_
  · exact conc
  · intro p entries ih hco r hr
    rw [preDesc.eq_def] at hr
    refine ih (fun k c hkc => ?_) r hr
    rw [Nat.zero_add]
    exact getAt_child d p _ k c hco hkc
  · intro p elems ih hco r hr
    rw [preDesc.eq_def] at hr
    refine ih (fun k c hkc => ?_) r hr
    rw [Nat.zero_add]
    exact getAt_child d p _ k c hco hkc
  · intro j p hno hna hco r hr
    rw [preDesc.eq_def] at hr
    cases j with
    | object entries => exact absurd rfl (hno entries)
    | array elems => exact absurd rfl (hna elems)
    | null => exact absurd hr (List.not_mem_nil _)
    | boolean b => exact absurd hr (List.not_mem_nil _)
    | u64 n => exact absurd hr (List.not_mem_nil _)
    | i64 n => exact absurd hr (List.not_mem_nil _)
    | string str => exact absurd hr (List.not_mem_nil _)
  · intro i p hco r hr
    rw [preKids.eq_def] at hr
    exact absurd hr (List.not_mem_nil _)
  · intro i p c rest ih1 ih2 hco r hr a t1 t2 ha ht1 hra ht2
    rw [preKids.eq_def] at hr
    have hc0 : getAt d (p ++ [i]) = some c := by
      have := hco 0 c (by simp)
      rwa [Nat.add_zero] at this
    rcases List.mem_cons.mp hr with rfl | hr
    · exfalso
      have hlen := congrArg List.length (by
        rw [hra, ha, List.append_assoc] : p ++ [i] = p ++ (t1 ++ t2))
      simp only [List.length_append, List.length_singleton] at hlen
      have h1 : 1 ≤ t1.length := by
        cases t1 with
        | nil => exact absurd rfl ht1
        | cons a b => simp
      have h2 : 1 ≤ t2.length := by
        cases t2 with
        | nil => exact absurd rfl ht2
        | cons a b => simp
      omega
    · rcases List.mem_append.mp hr with hr | hr
      · obtain ⟨k2, u, hu⟩ := preDesc_shape c (p ++ [i]) r hr
        cases t1 with
        | nil => exact absurd rfl ht1
        | cons h1 t1' =>
          have e1 : (p ++ h1 :: t1') ++ t2 = p ++ h1 :: (t1' ++ t2) := by
            rw [List.append_assoc, List.cons_append]
          have e2 : (p ++ [i]) ++ k2 :: u = p ++ i :: k2 :: u := by
            rw [List.append_assoc, List.singleton_append]
          have heq : p ++ h1 :: (t1' ++ t2) = p ++ i :: k2 :: u := by
            rw [← e1, ← ha, ← hra, hu, e2]
          obtain ⟨hh1, -⟩ := pos_append_cons_inj p h1 i (t1' ++ t2)
            (k2 :: u) heq
          subst hh1
          cases t1' with
          | nil =>
            exact ⟨c, by rw [ha]; exact hc0, by rw [ha]; exact hr⟩
          | cons h2 t1'' =>
            refine ih1 hc0 r hr a (h2 :: t1'') t2 ?_ (by simp) hra ht2
            rw [ha, List.append_assoc]
            rfl
      · exact ih2 (fun k c' hkc => by
          have := hco (k + 1) c' (by simpa using hkc)
          rwa [show i + (k + 1) = i + 1 + k by omega] at this)
          r hr a t1 t2 ha ht1 hra ht2

theorem seenGood_step (d : Json) (s O s' O' : List NRef) (p : Pos) (j : Json)
    (hco : getAt d p = some j) (hsg : SeenGood d s O)
    (hs' : ∀ ρ, ρ ∈ s' ↔ ρ ∈ s ∨ ρ ∈ (bodiedSpec j p s).map NRef.doc)
    (hO' : ∀ ρ, ρ ∈ O' ↔ ρ ∈ O ∨ ρ ∈ (emittedSpec j p s).map NRef.doc) :
    SeenGood d s' O' := by
  intro q jq hq hcoq r hr
  rcases (hs' _).mp hq with hqs | hqb
  · obtain ⟨h1, h2⟩ := hsg q jq hqs hcoq r hr
    exact ⟨(hs' _).mpr (Or.inl h1), (hO' _).mpr (Or.inl h2)⟩
  · rw [List.mem_map] at hqb
    obtain ⟨q0, hq0, hq0e⟩ := hqb
    injection hq0e with hq0e
    rw [hq0e] at hq0
    have hcfq : ChainFreeIncl s p q := bodiedSpec_chainFree j p s q hq0
    have hqshape := bodiedSpec_shape j p s q hq0
    have hrp : r ∈ preDesc j p := by
      rcases hqshape with rfl | hq'
      · have hj : jq = j := by
          rw [hco] at hcoq
          injection hcoq with hj2
          exact hj2.symm
        subst hj
        exact hr
      · exact preDesc_up d j p hco q hq' jq hcoq r hr
    obtain ⟨qr, k, hqrk, hqr⟩ := preDesc_parent jq q r hr
    have hqrext : ∃ u, qr = q ++ u := by
      rcases hqr with rfl | hqr'
      · exact ⟨[], (List.append_nil _).symm⟩
      · obtain ⟨k2, t2, ht2⟩ := preDesc_shape jq q qr hqr'
        exact ⟨k2 :: t2, ht2⟩
    obtain ⟨uq, huq⟩ := hqrext
    by_cases hb : ChainFreeIncl s q qr
    · have hcfqr : ChainFreeIncl s p qr := by
        intro a t1 t2 ha hqra
        rcases pos_comparable a q qr t2 uq hqra huq with ⟨u, hu⟩ | ⟨u, hu⟩
        · exact hcfq a t1 u ha hu
        · exact hb a u t2 hu hqra
      have hre : r ∈ emittedSpec j p s :=
        mem_emittedSpec_of_chainFree j p s r qr k hrp hqrk hcfqr
      refine ⟨?_, (hO' _).mpr (Or.inr (List.mem_map.mpr ⟨r, hre, rfl⟩))⟩
      by_cases hrs : NRef.doc r ∈ s
      · exact (hs' _).mpr (Or.inl hrs)
      · have hcfr : ChainFreeIncl s p r := by
          intro a t1 t2 ha hra
          cases t2 with
          | nil =>
            rw [List.append_nil] at hra
            subst hra
            exact hrs
          | cons h2 t2' =>
            obtain ⟨t', -, hqra2⟩ := pos_snoc_eq_append qr a (h2 :: t2') k
              (by rw [← hqrk, hra]) (by simp)
            exact hcfqr a t1 t' ha hqra2
        have hrbod : r ∈ bodiedSpec j p s :=
          mem_bodiedSpec_of_chainFree j p s r hrp hcfr
        exact (hs' _).mpr (Or.inr (List.mem_map.mpr ⟨r, hrbod, rfl⟩))
    · rw [ChainFreeIncl] at hb
      push_neg at hb
      obtain ⟨b, t1, t2, hb1, hb2, hbs⟩ := hb
      have hqns : NRef.doc q ∉ s := bodiedSpec_fresh j p s q hq0
      have ht1ne : t1 ≠ [] := by
        rintro rfl
        rw [List.append_nil] at hb1
        subst hb1
        exact hqns hbs
      have hrb : r = b ++ (t2 ++ [k]) := by
        rw [hqrk, hb2, List.append_assoc]
      obtain ⟨jb, hjb, hrjb⟩ := preDesc_down d jq q hcoq r hr b t1
        (t2 ++ [k]) hb1 ht1ne hrb (by simp)
      obtain ⟨h1, h2⟩ := hsg b jb hbs hjb r hrjb
      exact ⟨(hs' _).mpr (Or.inl h1), (hO' _).mpr (Or.inl h2)⟩

theorem emitted_seen_or_bodied (j : Json) (p : Pos) (s : List NRef) (r : Pos)
    (hr : r ∈ emittedSpec j p s) :
    NRef.doc r ∈ s ∨ r ∈ bodiedSpec j p s := by
  by_cases hrs : NRef.doc r ∈ s
  · exact Or.inl hrs
  · obtain ⟨q, k, hqk, hq⟩ := emittedSpec_parent j p s r hr
    have hcfq := bodiedSpec_chainFree j p s q hq
    have hrp : r ∈ preDesc j p := (emittedSpec_sublist j p s).subset hr
    have hcfr : ChainFreeIncl s p r := by
      intro a t1 t2 ha hra
      cases t2 with
      | nil =>
        rw [List.append_nil] at hra
        subst hra
        exact hrs
      | cons h2 t2' =>
        obtain ⟨t', -, hqa⟩ := pos_snoc_eq_append q a (h2 :: t2') k
          (by rw [← hqk, hra]) (by simp)
        exact hcfq a t1 t' ha hqa
    exact Or.inr (mem_bodiedSpec_of_chainFree j p s r hrp hcfr)

theorem doc_inj : Function.Injective NRef.doc := by
  intro a b h
  injection h

theorem descendInv_step (d : Json) (done : List JsonPath) (x : JsonPath)
    (acc : List JsonPath × List NRef) (hinv : DescendInv d done acc) :
    DescendInv d (done ++ [x]) (descendStep d acc x) := by
  obtain ⟨h1, h2, h3, h4, h5⟩ := hinv
  cases href : refNode d x.ref with
  | none =>
    have hstep : descendStep d acc x = (acc.1 ++ [], acc.2) := by
      rw [descendStep, href]
    rw [hstep]
    refine ⟨?_, ?_, ?_, ?_, ?_⟩ <;>
      simp only [List.append_nil]
    · exact h1
    · exact h2
    · exact h3
    · intro x' hx' p j hp hco
      rcases List.mem_append.mp hx' with hx' | hx'
      · exact h4 x' hx' p j hp hco
      · have hx'' : x' = x := List.mem_singleton.mp hx'
        subst hx''
        rw [hp] at href
        have hnone : getAt d p = none := href
        rw [hco] at hnone
        exact absurd hnone (by simp)
    · intro ρ hρ
      obtain ⟨x', hx', rest⟩ := h5 ρ hρ
      exact ⟨x', List.mem_append.mpr (Or.inl hx'), rest⟩
  | some j =>
    have hstep : descendStep d acc x
        = (acc.1 ++ (descend_helper j x acc.2).1,
           (descend_helper j x acc.2).2) := by
      rw [descendStep, href]
    rw [hstep]
    cases hx : x.ref with
    | sentinel =>
      have hj : j = Json.boolean true := by
        rw [hx] at href
        have h' : some (Json.boolean true) = some j := href
        injection h' with h'
        exact h'.symm
      subst hj
      have hdh : descend_helper (Json.boolean true) x acc.2
          = if x.ref ∈ acc.2 then (([], acc.2) : List JsonPath × List NRef)
            else ([], x.ref :: acc.2) := by
        rw [descend_helper.eq_def]
      rw [hdh]
      by_cases hmem : x.ref ∈ acc.2
      · rw [if_pos hmem]
        refine ⟨?_, ?_, ?_, ?_, ?_⟩ <;>
          simp only [List.append_nil]
        · exact h1
        · exact h2
        · exact h3
        · intro x' hx' p jv hp hco
          rcases List.mem_append.mp hx' with hx' | hx'
          · exact h4 x' hx' p jv hp hco
          · have hx'' : x' = x := List.mem_singleton.mp hx'
            subst hx''
            rw [hx] at hp
            exact absurd hp (by simp)
        · intro ρ hρ
          obtain ⟨x', hx', rest⟩ := h5 ρ hρ
          exact ⟨x', List.mem_append.mpr (Or.inl hx'), rest⟩
      · rw [if_neg hmem]
        have hdocs : ∀ q : Pos, NRef.doc q ∈ x.ref :: acc.2
            ↔ NRef.doc q ∈ acc.2 := by
          intro q
          rw [hx, List.mem_cons]
          simp
        refine ⟨?_, ?_, ?_, ?_, ?_⟩ <;>
          simp only [List.append_nil]
        · intro q jq hq hco r hr
          obtain ⟨c1, c2⟩ := h1 q jq ((hdocs q).mp hq) hco r hr
          exact ⟨(hdocs r).mpr c1, c2⟩
        · exact h2
        · intro ρ hρ
          obtain ⟨q, k, hqk, hqs⟩ := h3 ρ hρ
          exact ⟨q, k, hqk, List.mem_cons_of_mem _ hqs⟩
        · intro x' hx' p jv hp hco
          rcases List.mem_append.mp hx' with hx' | hx'
          · exact List.mem_cons_of_mem _ (h4 x' hx' p jv hp hco)
          · have hx'' : x' = x := List.mem_singleton.mp hx'
            subst hx''
            rw [hx] at hp
            exact absurd hp (by simp)
        · intro ρ hρ
          obtain ⟨x', hx', rest⟩ := h5 ρ hρ
          exact ⟨x', List.mem_append.mpr (Or.inl hx'), rest⟩
    | doc p0 =>
      obtain ⟨hE, hS⟩ := descend_helper_spec j x acc.2 p0 hx
      have hco : getAt d p0 = some j := by
        rw [hx] at href
        exact href
      have hO' : ∀ ρ, ρ ∈ (acc.1 ++ (descend_helper j x acc.2).1).map
            JsonPath.ref
          ↔ ρ ∈ acc.1.map JsonPath.ref
            ∨ ρ ∈ (emittedSpec j p0 acc.2).map NRef.doc := by
        intro ρ
        rw [List.map_append, List.mem_append, hE]
      refine ⟨?_, ?_, ?_, ?_, ?_⟩
      · exact seenGood_step d acc.2 (acc.1.map JsonPath.ref)
          (descend_helper j x acc.2).2
          ((acc.1 ++ (descend_helper j x acc.2).1).map JsonPath.ref)
          p0 j hco h1 hS hO'
      · rw [List.map_append, hE]
        refine List.Nodup.append h2 ?_ ?_
        · exact ((emittedSpec_sublist j p0 acc.2).nodup
            (preDesc_nodup j p0)).map doc_inj
        · intro ρ hρO hρE
          obtain ⟨q, k, hqk, hqs⟩ := h3 ρ hρO
          obtain ⟨r, hrE, hre⟩ := List.mem_map.mp hρE
          obtain ⟨q', k', hq'k, hq'⟩ :=
            emittedSpec_parent j p0 acc.2 r hrE
          have hfresh := bodiedSpec_fresh j p0 acc.2 q' hq'
          rw [hqk] at hre
          have heq : q ++ [k] = r := doc_inj hre.symm
          rw [hq'k] at heq
          obtain ⟨hqq, -⟩ := List.append_inj' heq (by simp)
          rw [hqq] at hqs
          exact hfresh hqs
      · intro ρ hρ
        rcases (hO' ρ).mp hρ with hρO | hρE
        · obtain ⟨q, k, hqk, hqs⟩ := h3 ρ hρO
          exact ⟨q, k, hqk, (hS _).mpr (Or.inl hqs)⟩
        · obtain ⟨r, hrE, hre⟩ := List.mem_map.mp hρE
          obtain ⟨q', k', hq'k, hq'⟩ :=
            emittedSpec_parent j p0 acc.2 r hrE
          refine ⟨q', k', by rw [← hre, hq'k], ?_⟩
          exact (hS _).mpr (Or.inr (List.mem_map.mpr ⟨q', hq', rfl⟩))
      · intro x' hx' p jv hp hco'
        rcases List.mem_append.mp hx' with hx' | hx'
        · exact (hS _).mpr (Or.inl (h4 x' hx' p jv hp hco'))
        · have hx'' : x' = x := List.mem_singleton.mp hx'
          subst hx''
          rw [hx] at hp
          have hpp : p = p0 := by injection hp.symm
          subst hpp
          by_cases hmem : NRef.doc p ∈ acc.2
          · exact (hS _).mpr (Or.inl hmem)
          · exact (hS _).mpr (Or.inr (List.mem_map.mpr
              ⟨p, self_mem_bodiedSpec j p acc.2 hmem, rfl⟩))
      · intro ρ hρ
        rcases (hO' ρ).mp hρ with hρO | hρE
        · obtain ⟨x', hx', rest⟩ := h5 ρ hρO
          exact ⟨x', List.mem_append.mpr (Or.inl hx'), rest⟩
        · obtain ⟨r, hrE, hre⟩ := List.mem_map.mp hρE
          refine ⟨x, List.mem_append.mpr (Or.inr (List.mem_singleton.mpr
            rfl)), p0, j, hx, hco, r,
            (emittedSpec_sublist j p0 acc.2).subset hrE, hre.symm⟩

theorem descendInv_init (d : Json) : DescendInv d [] ([], []) := by
  refine ⟨?_, ?_, ?_, ?_, ?_⟩
  · intro q jq hq
    exact absurd hq (List.not_mem_nil _)
  · simp
  · intro ρ hρ
    exact absurd hρ (by simp)
  · intro x' hx'
    exact absurd hx' (List.not_mem_nil _)
  · intro ρ hρ
    exact absurd hρ (by simp)

theorem descendInv_fold (d : Json) (ms : List JsonPath)
    (done : List JsonPath) (acc : List JsonPath × List NRef)
    (hinv : DescendInv d done acc) :
    DescendInv d (done ++ ms) (ms.foldl (descendStep d) acc) := by
  induction ms generalizing done acc with
  | nil =>
    rw [List.append_nil]
    exact hinv
  | cons m rest ih =>
    have hstep := descendInv_step d done m acc hinv
    have hrec := ih (done ++ [m]) _ hstep
    rw [List.append_assoc] at hrec
    exact hrec

/-- C1: `descend()` yields only document nodes, each at most once per
`select` invocation (no duplicate emission, no infinite loop), and the set
of yielded nodes is exactly the union of the strict descendants of the
dereferencing document nodes matched by the inner selector, even when those
matches are overlapping subtrees; when the inner selector yields a single
match, the output is exactly that node's pre-order descendant traversal
(object values then their subtrees, array elements in order).  (The claimed
global pre-order output order fails for overlapping matches; see the
counterexample.) -/
theorem descend_once (d : Json) (inner : Sel) (input : JsonPath) :
    ((Sel.select d (Sel.descend inner) input).map JsonPath.ref).Nodup
    ∧ (∀ ρ ∈ (Sel.select d (Sel.descend inner) input).map JsonPath.ref,
        ∃ r : Pos, ρ = NRef.doc r)
    ∧ (∀ r : Pos,
        NRef.doc r ∈ (Sel.select d (Sel.descend inner) input).map
            JsonPath.ref
          ↔ ∃ x ∈ Sel.select d inner input, ∃ p j, x.ref = NRef.doc p
              ∧ getAt d p = some j ∧ r ∈ preDesc j p)
    ∧ (∀ x p j, Sel.select d inner input = [x] → x.ref = NRef.doc p →
        getAt d p = some j →
        (Sel.select d (Sel.descend inner) input).map JsonPath.ref
          = (preDesc j p).map NRef.doc) := by
  have hsel : Sel.select d (Sel.descend inner) input
      = ((Sel.select d inner input).foldl (descendStep d) ([], [])).1 := by
    simp only [Sel.select]
  have hinv := descendInv_fold d (Sel.select d inner input) [] ([], [])
    (descendInv_init d)
  rw [List.nil_append] at hinv
  obtain ⟨h1, h2, h3, h4, h5⟩ := hinv
  rw [hsel]
  refine ⟨h2, ?_, ?_, ?_⟩
  · intro ρ hρ
    obtain ⟨q, k, hqk, -⟩ := h3 ρ hρ
    exact ⟨q ++ [k], hqk⟩
  · intro r
    constructor
    · intro hr
      obtain ⟨x, hxm, p, j, hp, hco, r', hr', hre⟩ := h5 _ hr
      obtain rfl := doc_inj hre
      exact ⟨x, hxm, p, j, hp, hco, hr'⟩
    · rintro ⟨x, hxm, p, j, hp, hco, hrp⟩
      have hps := h4 x hxm p j hp hco
      exact (h1 p j hps hco r hrp).2
  · intro x p j hms hp hco
    rw [hms]
    have hrn : refNode d x.ref = some j := by
      rw [hp]
      exact hco
    have hstep : descendStep d ([], []) x
        = ([] ++ (descend_helper j x []).1, (descend_helper j x []).2) := by
      rw [descendStep, hrn]
    have hfold : (([x] : List JsonPath).foldl (descendStep d) ([], [])).1
        = (descend_helper j x []).1 := by
      rw [List.foldl_cons, List.foldl_nil, hstep]
      rw [List.nil_append]
    rw [hfold]
    obtain ⟨hE, -⟩ := descend_helper_spec j x [] p hp
    rw [hE, emittedSpec_nil_seen]

/-- C1 counterexample to the pre-order output order: on document
`[[null]]` with inner selector `union(at(0), node)` (matches the inner
array `[null]` first and then the root), `descend()` emits the node at
position `[0, 0]` before the node at position `[0]`, although the root is
itself an inner match and the pre-order traversal of its strict
descendants lists `[0]` before `[0, 0]`. -/
theorem descend_preorder_cex :
    ((Sel.select (Json.array [Json.array [Json.null]])
        (Sel.descend (Sel.union Sel.node (Sel.atIdx Sel.node 0) Sel.node))
        (JsonPath.root (NRef.doc []))).map JsonPath.ref
      = [NRef.doc [0, 0], NRef.doc [0]])
    ∧ (JsonPath.root (NRef.doc [])
        ∈ Sel.select (Json.array [Json.array [Json.null]])
            (Sel.union Sel.node (Sel.atIdx Sel.node 0) Sel.node)
            (JsonPath.root (NRef.doc [])))
    ∧ (preDesc (Json.array [Json.array [Json.null]]) [] = [[0], [0, 0]]) := by
  refine ⟨?_, ?_, ?_⟩
  · simp [Sel.select, descendStep, pushFresh, descend_helper.eq_def,
      descendKids.eq_def, refNode, getAt, Json.children, childRef,
      JsonPath.ref]
  · simp [Sel.select, pushFresh, refNode, getAt, Json.children, childRef,
      JsonPath.ref]
  · simp [preDesc.eq_def, preKids.eq_def, Json.children]
